import Mathlib

set_option maxRecDepth 8192

/-!
Verification development for the xhs_spider repository.

This file gives a shallow embedding, in Lean 4, of the parts of the
repository that the specification's claims are about:

* `src/cookie_pool.py` — the `CookieAccount` / `CookiePool` classes
  (account eligibility, acquisition, failure reporting, rotation
  strategies);
* `src/json_to_full_data.py` — `parse_comment_count`, the credential
  rotating retry wrapper `get_with_cookie_pool_retry`, and the
  top-level comment walk `save_comments_streaming`;
* `src/apis/xhs_pc_apis.py` — the recursive sub-comment walker
  `get_note_all_inner_comment_with_provider`;
* `src/progress_manager.py` — the progress statistics bookkeeping and
  the atomic `save_progress` persistence.

Conventions: wall-clock time is modelled in seconds as `Nat`, a calendar
day is `86400` seconds and the date of instant `now` is `now / 86400`;
Python `datetime` fields that may be `None` are `Option Nat`; Python
dictionaries that are keyed by insertion order are association lists in
insertion order.  Network I/O is modelled by explicit server oracles
(functions from request parameters to responses); loops whose iteration
count is controlled by the server are given explicit fuel and the
theorems quantify over all fuels.
-/

/-! # Part 1: the cookie pool (`src/cookie_pool.py`) -/

/-- One cookie account, the mutable state of class `CookieAccount`.
Defaults are those set in `CookieAccount.__init__`.  The `cookie_id`
(an md5 in the source) is abstracted to a `Nat` identifier; the parts of
the class (`name`, `remark`, `cookie_str`, `create_time`) that no
claim mentions are omitted. -/
structure CookieAccount where
  cookie_id : Nat
  is_active : Bool := true
  last_use_time : Option Nat := none
  use_count : Nat := 0
  error_count : Nat := 0
  daily_use_count : Nat := 0
  daily_limit : Nat := 100
  cooldown_until : Option Nat := none
  min_interval : Nat := 3
  success_count : Nat := 0
  fail_count : Nat := 0
  total_notes : Nat := 0
  last_reset_date : Nat := 0
deriving Repr, DecidableEq

/-- Calendar date (day number) of a time instant, `datetime.now().date()`. -/
def dateOf (now : Nat) : Nat := now / 86400

/-- `CookieAccount._check_daily_reset`: when the date has advanced past
`last_reset_date`, zero the daily counter and move the reset date. -/
def check_daily_reset (a : CookieAccount) (now : Nat) : CookieAccount :=
  if a.last_reset_date < dateOf now then
    { a with daily_use_count := 0, last_reset_date := dateOf now }
  else a

/-- The cooldown test of `CookieAccount.can_use`:
`self.cooldown_until and datetime.now() < self.cooldown_until`. -/
def cooldownBlocked (a : CookieAccount) (now : Nat) : Bool :=
  match a.cooldown_until with
  | some t => now < t
  | none => false

/-- The minimum-interval test of `CookieAccount.can_use`: with a previous
use at `lu`, the elapsed time `now - lu` must reach `min_interval`. -/
def intervalBlocked (a : CookieAccount) (now : Nat) : Bool :=
  match a.last_use_time with
  | some lu => now - lu < a.min_interval
  | none => false

/-- `CookieAccount.can_use`.  Returns the availability verdict together
with the (possibly daily-reset) account, since `can_use` mutates the
account through `_check_daily_reset`.  The tests appear in source order:
active flag, cooldown, minimum interval, daily limit (after the daily
reset), and the error-count threshold `error_count >= 5`. -/
def can_use (a : CookieAccount) (now : Nat) : Bool × CookieAccount :=
  if a.is_active = false then (false, a)
  else if cooldownBlocked a now then (false, a)
  else if intervalBlocked a now then (false, a)
  else
    let a2 := check_daily_reset a now
    if a2.daily_limit ≤ a2.daily_use_count then (false, a2)
    else if 5 ≤ a2.error_count then (false, a2)
    else (true, a2)

/-- `CookieAccount.use`: stamp `last_use_time` with the current instant
and increment the two usage counters. -/
def CookieAccount.use (a : CookieAccount) (now : Nat) : CookieAccount :=
  { a with
    last_use_time := some now
    use_count := a.use_count + 1
    daily_use_count := a.daily_use_count + 1 }

/-- `CookieAccount.mark_success`: bump success statistics and decrement
the error counter (floored at 0, which `Nat` subtraction gives). -/
def mark_success (a : CookieAccount) (notes_count : Nat) : CookieAccount :=
  { a with
    success_count := a.success_count + 1
    total_notes := a.total_notes + notes_count
    error_count := a.error_count - 1 }

/-- `CookieAccount.mark_error`: increment `fail_count` and
`error_count`; once the new `error_count` reaches 3, set a cooldown of
`min(error_count * 5, 60)` minutes from now; once it reaches 10,
deactivate the account.  Minutes are converted to the second-based
clock. -/
def mark_error (a : CookieAccount) (now : Nat) : CookieAccount :=
  let a1 := { a with fail_count := a.fail_count + 1, error_count := a.error_count + 1 }
  let a2 :=
    if 3 ≤ a1.error_count then
      { a1 with cooldown_until := some (now + (min (a1.error_count * 5) 60) * 60) }
    else a1
  if 10 ≤ a2.error_count then { a2 with is_active := false } else a2

/-- The rotation strategies of `CookiePool`. -/
inductive Strategy where
  | round_robin
  | random
  | least_used
deriving Repr, DecidableEq

/-- The pool state of class `CookiePool`: the accounts dictionary in
insertion order, the strategy and the round-robin index (initialised to
`-1` in the source, hence an `Int`). -/
structure CookiePool where
  accounts : List CookieAccount
  strategy : Strategy := .round_robin
  last_used_index : Int := -1
deriving Repr, DecidableEq

/-- A placeholder account for the (never reached) out-of-range list
accesses of the selection code. -/
def dummyAccount : CookieAccount := { cookie_id := 0 }

/-- The `least_used` selection `min(available, key=lambda x:
x.daily_use_count)`.  Python's `min` returns the first element attaining
the minimum, which a left fold that replaces only on a strictly smaller
key reproduces. -/
def selectLeastUsed (l : List CookieAccount) : Option CookieAccount :=
  match l with
  | [] => none
  | x :: xs =>
    some (xs.foldl (fun m y => if y.daily_use_count < m.daily_use_count then y else m) x)

/-- The `available_accounts` list built by
`CookiePool.get_available_account`: every account is run through
`can_use` (keeping its daily-reset effect) and the available ones are
collected in dictionary iteration order. -/
def availList (p : CookiePool) (now : Nat) : List CookieAccount :=
  ((p.accounts.map (fun a => can_use a now)).filter (fun pr => pr.1)).map
    (fun pr => pr.2)

/-- `CookiePool.get_available_account`.  Every account is run through
`can_use` (whose daily-reset effect is kept); the available ones are
collected in iteration order; if none is available the result is
`none`.  Otherwise one is chosen by the strategy — `random` consumes the
oracle `pick`, `least_used` takes the first minimiser of
`daily_use_count`, `round_robin` advances the index modulo the filtered
list — and the chosen account is stamped via `use`.  The returned pool
reflects the in-place mutations (accounts are keyed by their distinct
`cookie_id`). -/
def get_available_account (p : CookiePool) (now : Nat) (pick : Nat) :
    Option CookieAccount × CookiePool :=
  let accounts1 := p.accounts.map (fun a => (can_use a now).2)
  match availList p now with
  | [] => (none, { p with accounts := accounts1 })
  | a0 :: rest =>
    let sel : CookieAccount × Int :=
      match p.strategy with
      | .random => ((a0 :: rest).getD (pick % (a0 :: rest).length) dummyAccount,
                    p.last_used_index)
      | .least_used =>
        (match selectLeastUsed (a0 :: rest) with
         | some m => m
         | none => dummyAccount, p.last_used_index)
      | .round_robin =>
        let i : Int := (p.last_used_index + 1) % ((a0 :: rest).length : Int)
        ((a0 :: rest).getD i.toNat dummyAccount, i)
    let sel2 := sel.1.use now
    let accounts2 := accounts1.map (fun a =>
      if a.cookie_id = sel.1.cookie_id then sel2 else a)
    (some sel2, { p with accounts := accounts2, last_used_index := sel.2 })

/-! ## Basic lemmas about the pool embedding -/

@[simp] theorem check_daily_reset_error_count (a : CookieAccount) (now : Nat) :
    (check_daily_reset a now).error_count = a.error_count := by
  unfold check_daily_reset; split <;> rfl

@[simp] theorem check_daily_reset_is_active (a : CookieAccount) (now : Nat) :
    (check_daily_reset a now).is_active = a.is_active := by
  unfold check_daily_reset; split <;> rfl

@[simp] theorem check_daily_reset_daily_limit (a : CookieAccount) (now : Nat) :
    (check_daily_reset a now).daily_limit = a.daily_limit := by
  unfold check_daily_reset; split <;> rfl

@[simp] theorem use_error_count (a : CookieAccount) (now : Nat) :
    (a.use now).error_count = a.error_count := rfl

@[simp] theorem use_last_use_time (a : CookieAccount) (now : Nat) :
    (a.use now).last_use_time = some now := rfl

@[simp] theorem use_use_count (a : CookieAccount) (now : Nat) :
    (a.use now).use_count = a.use_count + 1 := rfl

@[simp] theorem use_daily_use_count (a : CookieAccount) (now : Nat) :
    (a.use now).daily_use_count = a.daily_use_count + 1 := rfl

/-- Membership in the filtered `available_accounts` list. -/
theorem mem_availList {p : CookiePool} {now : Nat} {x : CookieAccount} :
    x ∈ availList p now ↔
      ∃ a ∈ p.accounts, (can_use a now).1 = true ∧ x = (can_use a now).2 := by
  simp only [availList, List.mem_map, List.mem_filter]
  constructor
  · rintro ⟨pr, ⟨⟨a, ha, rfl⟩, hfst⟩, rfl⟩
    exact ⟨a, ha, hfst, rfl⟩
  · rintro ⟨a, ha, hfst, rfl⟩
    exact ⟨can_use a now, ⟨⟨a, ha, rfl⟩, hfst⟩, rfl⟩

set_option linter.unnecessarySeqFocus false in
/-- An account passing the `can_use` filter has `error_count < 5`. -/
theorem can_use_true_error_lt {a : CookieAccount} {now : Nat}
    (h : (can_use a now).1 = true) : ((can_use a now).2).error_count < 5 := by
  simp only [can_use] at h ⊢
  split_ifs at h ⊢ <;> simp_all

set_option linter.unnecessarySeqFocus false in
/-- The result of `selectLeastUsed` on a nonempty list is the first
element attaining the minimal `daily_use_count`: the list decomposes
around it, it is a global minimiser, and everything before it is
strictly larger. -/
theorem selectLeastUsed_spec :
    ∀ (xs : List CookieAccount) (x m : CookieAccount),
      xs.foldl (fun m y => if y.daily_use_count < m.daily_use_count then y else m) x
        = m →
      ∃ l1 l2, x :: xs = l1 ++ m :: l2 ∧
        (∀ z ∈ x :: xs, m.daily_use_count ≤ z.daily_use_count) ∧
        (∀ z ∈ l1, m.daily_use_count < z.daily_use_count) := by
  intro xs
  induction xs with
  | nil =>
    intro x m h
    simp only [List.foldl] at h
    subst h
    exact ⟨[], [], rfl, by simp, by simp⟩
  | cons y ys ih =>
    intro x m h
    simp only [List.foldl] at h
    by_cases hlt : y.daily_use_count < x.daily_use_count
    · rw [if_pos hlt] at h
      obtain ⟨l1, l2, hdec, hmin, hstrict⟩ := ih y m h
      have hy : m.daily_use_count ≤ y.daily_use_count := hmin y (by simp)
      refine ⟨x :: l1, l2, by rw [List.cons_append, ← hdec], ?_, ?_⟩
      · intro z hz
        rcases List.mem_cons.mp hz with rfl | hz
        · omega
        · exact hmin z hz
      · intro z hz
        rcases List.mem_cons.mp hz with rfl | hz
        · omega
        · exact hstrict z hz
    · rw [if_neg hlt] at h
      obtain ⟨l1, l2, hdec, hmin, hstrict⟩ := ih x m h
      cases l1 with
      | nil =>
        rw [List.nil_append] at hdec
        injection hdec with h1 h2
        subst h1
        subst h2
        refine ⟨[], y :: ys, rfl, ?_, by simp⟩
        intro z hz
        rcases List.mem_cons.mp hz with rfl | hz
        · exact le_refl _
        rcases List.mem_cons.mp hz with rfl | hz
        · omega
        · exact hmin z (by simp [hz])
      | cons w l1t =>
        rw [List.cons_append] at hdec
        injection hdec with h1 h2
        subst h1
        subst h2
        have hmx : m.daily_use_count < x.daily_use_count := hstrict x (by simp)
        refine ⟨x :: y :: l1t, l2, by simp, ?_, ?_⟩
        · intro z hz
          rcases List.mem_cons.mp hz with rfl | hz
          · exact le_of_lt hmx
          rcases List.mem_cons.mp hz with rfl | hz
          · omega
          · exact hmin z (by simp [hz])
        · intro z hz
          rcases List.mem_cons.mp hz with rfl | hz
          · exact hmx
          rcases List.mem_cons.mp hz with rfl | hz
          · omega
          · exact hstrict z (by simp [hz])


theorem getD_mem_of_lt {l : List CookieAccount} {n : Nat} {d : CookieAccount}
    (h : n < l.length) : l.getD n d ∈ l := by
  rw [List.getD_eq_getElem?_getD, List.getElem?_eq_getElem h, Option.getD_some]
  exact List.getElem_mem h

/-- The available list is empty exactly when every account fails the
`can_use` filter. -/
theorem availList_eq_nil_iff {p : CookiePool} {now : Nat} :
    availList p now = [] ↔ ∀ a ∈ p.accounts, (can_use a now).1 = false := by
  simp only [availList, List.map_eq_nil_iff, List.filter_eq_nil_iff, List.mem_map]
  constructor
  · intro h a ha
    have := h (can_use a now) ⟨a, ha, rfl⟩
    simpa using this
  · rintro h pr ⟨a, ha, rfl⟩
    simp [h a ha]

/-- Whatever the strategy, an acquired account is the `use`-stamped
version of some pool account that passed the `can_use` filter. -/
theorem get_available_some {p : CookiePool} {now pick : Nat} {b : CookieAccount}
    (h : (get_available_account p now pick).1 = some b) :
    ∃ a ∈ p.accounts, (can_use a now).1 = true ∧
      b = ((can_use a now).2).use now := by
  simp only [get_available_account] at h
  cases hav : availList p now with
  | nil => rw [hav] at h; simp at h
  | cons a0 rest =>
    rw [hav] at h
    have hmem : ∀ s : CookieAccount, s ∈ a0 :: rest →
        s.use now = b → ∃ a ∈ p.accounts, (can_use a now).1 = true ∧
          b = ((can_use a now).2).use now := by
      intro s hs he
      have := mem_availList.mp (hav ▸ hs)
      obtain ⟨a, ha, hcu, rfl⟩ := this
      exact ⟨a, ha, hcu, he.symm⟩
    cases hstr : p.strategy with
    | random =>
      rw [hstr] at h
      simp only [Option.some.injEq] at h
      refine hmem _ (getD_mem_of_lt ?_) h
      exact Nat.mod_lt _ (by simp)
    | least_used =>
      rw [hstr] at h
      simp only [Option.some.injEq] at h
      have h2 : (match selectLeastUsed (a0 :: rest) with
          | some m => m
          | none => dummyAccount) =
          rest.foldl
            (fun m y => if y.daily_use_count < m.daily_use_count then y else m)
            a0 := rfl
      rw [h2] at h
      obtain ⟨l1, l2, hdec, -, -⟩ := selectLeastUsed_spec rest a0 _ rfl
      refine hmem _ ?_ h
      rw [hdec]
      simp
    | round_robin =>
      rw [hstr] at h
      simp only [Option.some.injEq] at h
      refine hmem _ (getD_mem_of_lt ?_) h
      have hlen : (0 : Int) < ((a0 :: rest).length : Int) := by
        simp
      have h1 : 0 ≤ (p.last_used_index + 1) % ((a0 :: rest).length : Int) :=
        Int.emod_nonneg _ (by omega)
      have h2 : (p.last_used_index + 1) % ((a0 :: rest).length : Int) <
          ((a0 :: rest).length : Int) := Int.emod_lt_of_pos _ hlen
      omega

/-- Acquisition returns `none` exactly when no account passes the
filter. -/
theorem get_available_none_iff {p : CookiePool} {now pick : Nat} :
    (get_available_account p now pick).1 = none ↔
      ∀ a ∈ p.accounts, (can_use a now).1 = false := by
  rw [← availList_eq_nil_iff]
  simp only [get_available_account]
  cases hav : availList p now with
  | nil => simp
  | cons a0 rest => cases p.strategy <;> simp

/-! ## Claim C4: failure-report policy (`CookieAccount.mark_error`) -/

/-- C4.  `mark_error` increments `fail_count` and the error counter by
one; once the incremented error counter reaches 3, the cooldown is set
to now plus `min(error_count * 5, 60)` minutes (and is otherwise left
unchanged); once it reaches 10 the account is deactivated (and the
active flag is otherwise left unchanged). -/
theorem C4_failure_report_policy (a : CookieAccount) (now : Nat) :
    (mark_error a now).fail_count = a.fail_count + 1 ∧
    (mark_error a now).error_count = a.error_count + 1 ∧
    (3 ≤ a.error_count + 1 →
      (mark_error a now).cooldown_until =
        some (now + (min ((a.error_count + 1) * 5) 60) * 60)) ∧
    (a.error_count + 1 < 3 →
      (mark_error a now).cooldown_until = a.cooldown_until) ∧
    (10 ≤ a.error_count + 1 → (mark_error a now).is_active = false) ∧
    (a.error_count + 1 < 10 → (mark_error a now).is_active = a.is_active) := by
  simp only [mark_error]
  split_ifs <;> simp_all

/-- Witness for C4 at a concrete account: the tenth consecutive error
sets a 50-minute cooldown and deactivates the account. -/
theorem C4_failure_report_policy_witness :
    (3 ≤ ({ cookie_id := 7, error_count := 9 } : CookieAccount).error_count + 1) ∧
    (mark_error { cookie_id := 7, error_count := 9 } 1000).cooldown_until =
      some (1000 + (min ((({ cookie_id := 7, error_count := 9 } :
        CookieAccount).error_count + 1) * 5) 60) * 60) ∧
    (10 ≤ ({ cookie_id := 7, error_count := 9 } : CookieAccount).error_count + 1) ∧
    (mark_error { cookie_id := 7, error_count := 9 } 1000).is_active = false :=
  ⟨by decide,
   (C4_failure_report_policy { cookie_id := 7, error_count := 9 } 1000).2.2.1
     (by decide),
   by decide,
   (C4_failure_report_policy { cookie_id := 7, error_count := 9 } 1000).2.2.2.2.1
     (by decide)⟩

/-! ## Claim C10: the implicit `error_count >= 5` eligibility threshold -/

/-- C10.  An account with `error_count ≥ 5` fails the `can_use` check
(without being deactivated by it), hence is never returned by
acquisition: any account returned by `get_available_account` has
`error_count < 5`.  This selection threshold 5 is strictly below the
hard-disable threshold 10 of `mark_error`, so an account with
`error_count ∈ [5, 10)` is unavailable yet can still be active. -/
theorem C10_error_threshold_invariant :
    (∀ (a : CookieAccount) (now : Nat), 5 ≤ a.error_count →
      (can_use a now).1 = false ∧ ((can_use a now).2).is_active = a.is_active) ∧
    (∀ (p : CookiePool) (now pick : Nat) (b : CookieAccount),
      (get_available_account p now pick).1 = some b → b.error_count < 5) ∧
    (5 : Nat) < 10 := by
  refine ⟨?_, ?_, by norm_num⟩
  · intro a now h5
    constructor
    · simp only [can_use]
      split_ifs with h1 h2 h3 h4 h5x <;> simp_all
    · simp only [can_use]
      split_ifs <;> simp
  · intro p now pick b hb
    obtain ⟨a, -, hcu, rfl⟩ := get_available_some hb
    simpa using can_use_true_error_lt hcu

/-- Witness for C10 at a concrete account with `error_count = 5`, which
is active, past cooldown and interval, and under its daily cap, yet is
rejected by `can_use` without being deactivated. -/
theorem C10_error_threshold_invariant_witness :
    (5 ≤ ({ cookie_id := 3, error_count := 5 } : CookieAccount).error_count) ∧
    (can_use { cookie_id := 3, error_count := 5 } 50).1 = false ∧
    ((can_use { cookie_id := 3, error_count := 5 } 50).2).is_active =
      ({ cookie_id := 3, error_count := 5 } : CookieAccount).is_active :=
  ⟨by decide,
   (C10_error_threshold_invariant.1 { cookie_id := 3, error_count := 5 } 50
     (by decide)).1,
   (C10_error_threshold_invariant.1 { cookie_id := 3, error_count := 5 } 50
     (by decide)).2⟩

/-! ## Claim C3: pool liveness and acquisition effect -/

/-- Sufficient conditions for passing the `can_use` filter: active, out
of cooldown, past the minimum interval, under the daily cap (after the
daily reset) and below the error threshold. -/
theorem can_use_true_of {a : CookieAccount} {now : Nat}
    (hact : a.is_active = true)
    (hcool : cooldownBlocked a now = false)
    (hint : intervalBlocked a now = false)
    (hdaily : (check_daily_reset a now).daily_use_count < a.daily_limit)
    (herr : a.error_count < 5) : (can_use a now).1 = true := by
  simp only [can_use]
  split_ifs with h1 h2 h3 h4 h5 <;> simp_all <;> omega

/-- An account that is active, without cooldown, never used, with no
usage today — but whose `error_count` sits at the eligibility
threshold 5. -/
def acct3 : CookieAccount := { cookie_id := 1, error_count := 5 }

/-- A pool holding only `acct3`. -/
def pool3 : CookiePool := { accounts := [acct3] }

/-- C3, counterexample.  `acct3` is not inactive, not in cooldown, under
its daily cap and past its minimum interval — the claim's premise in
full — yet `get_available_account` returns `none`, because `can_use`
also requires `error_count < 5`. -/
theorem C3_counterexample :
    acct3.is_active = true ∧
    cooldownBlocked acct3 100 = false ∧
    intervalBlocked acct3 100 = false ∧
    (check_daily_reset acct3 100).daily_use_count <
      (check_daily_reset acct3 100).daily_limit ∧
    acct3 ∈ pool3.accounts ∧
    (get_available_account pool3 100 0).1 = none := by decide

/-- C3 as amended: the eligibility premise additionally requires the
error counter to be below the threshold 5.  Then acquisition returns a
non-`none` credential; the credential returned is the `use`-stamp of a
pool account that passed the filter — its `last_use_time` is `now` and
its `use_count` and `daily_use_count` are one more than before — and
`none` is returned exactly when no account passes the filter. -/
theorem C3_pool_liveness_amended (p : CookiePool) (now pick : Nat)
    (h : ∃ a ∈ p.accounts, a.is_active = true ∧
      cooldownBlocked a now = false ∧ intervalBlocked a now = false ∧
      (check_daily_reset a now).daily_use_count < a.daily_limit ∧
      a.error_count < 5) :
    (∃ b, (get_available_account p now pick).1 = some b ∧
      b.last_use_time = some now ∧
      ∃ a ∈ p.accounts, (can_use a now).1 = true ∧
        b = ((can_use a now).2).use now ∧
        b.use_count = ((can_use a now).2).use_count + 1 ∧
        b.daily_use_count = ((can_use a now).2).daily_use_count + 1) ∧
    ((get_available_account p now pick).1 = none ↔
      ∀ a ∈ p.accounts, (can_use a now).1 = false) := by
  refine ⟨?_, get_available_none_iff⟩
  obtain ⟨a, ha, hact, hcool, hint, hdaily, herr⟩ := h
  have hcu : (can_use a now).1 = true := can_use_true_of hact hcool hint hdaily herr
  cases hres : (get_available_account p now pick).1 with
  | none =>
    have := get_available_none_iff.mp hres a ha
    simp [hcu] at this
  | some b =>
    obtain ⟨a2, ha2, hcu2, rfl⟩ := get_available_some hres
    exact ⟨_, rfl, rfl, a2, ha2, hcu2, rfl, rfl, rfl⟩

/-- Witness for C3 as amended, on a one-account pool with a fresh
account. -/
theorem C3_pool_liveness_amended_witness :
    ∃ b, (get_available_account { accounts := [{ cookie_id := 2 }] } 100 0).1 =
        some b ∧
      b.last_use_time = some 100 ∧
      ∃ a ∈ ({ accounts := [{ cookie_id := 2 }] } : CookiePool).accounts,
        (can_use a 100).1 = true ∧ b = ((can_use a 100).2).use 100 ∧
        b.use_count = ((can_use a 100).2).use_count + 1 ∧
        b.daily_use_count = ((can_use a 100).2).daily_use_count + 1 :=
  (C3_pool_liveness_amended { accounts := [{ cookie_id := 2 }] } 100 0
    (by decide)).1

/-! ## Claim C8: `least_used` selection and its tie-break -/

/-- First of two tied accounts: used more recently (`last_use_time`
100). -/
def acct8a : CookieAccount := { cookie_id := 1, last_use_time := some 100 }

/-- Second of two tied accounts: idle for longer (`last_use_time` 0). -/
def acct8b : CookieAccount := { cookie_id := 2, last_use_time := some 0 }

/-- A `least_used` pool holding the two tied accounts, `acct8a`
first. -/
def pool8 : CookiePool := { accounts := [acct8a, acct8b], strategy := .least_used }

/-- C8, counterexample.  Both accounts are eligible with equal
`daily_use_count`, and `acct8b` has the older `last_use_time`; the
claim predicts `acct8b` is selected, but the code's `min` keeps the
first minimiser in iteration order and selects `acct8a`. -/
theorem C8_counterexample :
    pool8.strategy = Strategy.least_used ∧
    (can_use acct8a 200).1 = true ∧ (can_use acct8b 200).1 = true ∧
    acct8a.daily_use_count = acct8b.daily_use_count ∧
    acct8a.last_use_time = some 100 ∧ acct8b.last_use_time = some 0 ∧
    (get_available_account pool8 200 0).1 = some (acct8a.use 200) ∧
    ((get_available_account pool8 200 0).1 = some (acct8b.use 200) → False) := by
  decide

/-- C8 as amended: under `least_used`, the selected account is an
eligible account with minimal `daily_use_count`, and when several are
tied the one selected is the *first* such account in the pool's
iteration order (every earlier available account has a strictly larger
`daily_use_count`); `last_use_time` plays no part. -/
theorem C8_least_used_first_minimiser (p : CookiePool) (now pick : Nat)
    (hs : p.strategy = Strategy.least_used) (b : CookieAccount)
    (hb : (get_available_account p now pick).1 = some b) :
    ∃ l1 m l2, availList p now = l1 ++ m :: l2 ∧ b = m.use now ∧
      (∀ x ∈ availList p now, m.daily_use_count ≤ x.daily_use_count) ∧
      (∀ x ∈ l1, m.daily_use_count < x.daily_use_count) := by
  simp only [get_available_account] at hb
  cases hav : availList p now with
  | nil => rw [hav] at hb; simp at hb
  | cons a0 rest =>
    rw [hav, hs] at hb
    simp only [Option.some.injEq] at hb
    have h2 : (match selectLeastUsed (a0 :: rest) with
        | some m => m
        | none => dummyAccount) =
        rest.foldl
          (fun m y => if y.daily_use_count < m.daily_use_count then y else m)
          a0 := rfl
    rw [h2] at hb
    obtain ⟨l1, l2, hdec, hmin, hstrict⟩ := selectLeastUsed_spec rest a0 _ rfl
    exact ⟨l1, _, l2, hdec, hb.symm, hmin, hstrict⟩

/-- Witness for C8 as amended, on the two-account pool `pool8`. -/
theorem C8_least_used_first_minimiser_witness :
    ∃ l1 m l2, availList pool8 200 = l1 ++ m :: l2 ∧
      acct8a.use 200 = m.use 200 ∧
      (∀ x ∈ availList pool8 200, m.daily_use_count ≤ x.daily_use_count) ∧
      (∀ x ∈ l1, m.daily_use_count < x.daily_use_count) :=
  C8_least_used_first_minimiser pool8 200 0 rfl (acct8a.use 200) (by decide)

/-! # Part 2: `parse_comment_count` (`src/json_to_full_data.py`) -/

/-- `str.strip()`: drop whitespace from both ends.  Strings are
modelled as character lists. -/
def trimChars (cs : List Char) : List Char :=
  ((cs.dropWhile Char.isWhitespace).reverse.dropWhile Char.isWhitespace).reverse

/-- Accumulate a digit string into a number. -/
def natOfDigits (cs : List Char) : Nat :=
  cs.foldl (fun n c => n * 10 + (c.toNat - 48)) 0

/-- Python `int(...)` on an (already stripped) string: an optional sign
followed by at least one digit; anything else raises. -/
def pyInt (cs : List Char) : Option Int :=
  let digits : List Char → Option Nat := fun ds =>
    if ds ≠ [] ∧ ds.all Char.isDigit then some (natOfDigits ds) else none
  match cs with
  | '+' :: r => (digits r).map (fun n => (n : Int))
  | '-' :: r => (digits r).map (fun n => -(n : Int))
  | _ => (digits cs).map (fun n => (n : Int))

/-- Binary length of a natural number (`⌊log₂ n⌋ + 1` for `n ≥ 1`, 0
for 0): fuel-driven halving, the number itself serving as ample fuel. -/
def bitlenAux : Nat → Nat → Nat
  | 0, _ => 0
  | f + 1, n => if n ≤ 1 then n else bitlenAux f (n / 2) + 1

/-- Binary length, see `bitlenAux`. -/
def bitlen (n : Nat) : Nat := bitlenAux n n

/-- Whether `2^L ≤ M / tenk`, as an exact integer comparison. -/
def le2pow (M tenk : Nat) (L : Int) : Bool :=
  if 0 ≤ L then decide (tenk * 2 ^ L.toNat ≤ M)
  else decide (tenk ≤ M * 2 ^ (-L).toNat)

/-- The floor of `log₂ (M / tenk)` for `M, tenk ≥ 1`: the estimate
from the binary lengths is off by at most one and is fixed by direct
comparison. -/
def floorLog2Frac (M tenk : Nat) : Int :=
  let L0 : Int := (bitlen M : Int) - (bitlen tenk : Int)
  if le2pow M tenk (L0 + 1) then L0 + 1
  else if le2pow M tenk L0 then L0
  else L0 - 1

/-- Round `num / den` (`den ≥ 1`) to the nearest integer, ties to the
even candidate — the IEEE-754 default rounding. -/
def rndHalfEven (num den : Nat) : Nat :=
  let v := num / den
  let r := num % den
  if 2 * r < den then v
  else if den < 2 * r then v + 1
  else if v % 2 = 0 then v else v + 1

/-- A Python float: a finite IEEE-754 binary64 value `±m·2^e`, or an
infinity. -/
inductive PyF where
  | finite (sign : Bool) (m : Nat) (e : Int)
  | inf (sign : Bool)
deriving Repr, DecidableEq

/-- Transfer a parsed sign onto a magnitude-only float. -/
def PyF.withSign : PyF → Bool → PyF
  | .finite _ m e, sg => .finite sg m e
  | .inf _, sg => .inf sg

/-- Round the non-negative rational `M / 10^k` to the nearest binary64,
ties to even: the nearest multiple of `2^max(⌊log₂⌋ - 52, -1074)`
(covering both the normal and the subnormal range), overflowing to
infinity at `2^1024`. -/
def roundFracToDouble (M k : Nat) : PyF :=
  if M = 0 then .finite false 0 0
  else
    let tenk := 10 ^ k
    let L := floorLog2Frac M tenk
    let e := max (L - 52) (-1074)
    let num := M * 2 ^ (-e).toNat
    let den := tenk * 2 ^ e.toNat
    let m := rndHalfEven num den
    if 0 ≤ e ∧ 2 ^ 1024 ≤ m * 2 ^ e.toNat then .inf false
    else .finite false m e

/-- The decimal-literal grammar of comment counts
(`[sign] digits [ . digits ]` / `[sign] . digits`): sign, the integer
made of all digits, and the number of fractional digits — the exact
literal value is `±M / 10^k`. -/
def decimalLit (cs : List Char) : Option (Bool × Nat × Nat) :=
  let signBody : Bool × List Char :=
    match cs with
    | '+' :: r => (false, r)
    | '-' :: r => (true, r)
    | _ => (false, cs)
  let ip := signBody.2.takeWhile Char.isDigit
  let rest := signBody.2.dropWhile Char.isDigit
  match rest with
  | [] => if ip = [] then none else some (signBody.1, natOfDigits ip, 0)
  | '.' :: fr =>
    if fr.all Char.isDigit ∧ (ip ≠ [] ∨ fr ≠ []) then
      some (signBody.1,
        natOfDigits ip * 10 ^ fr.length + natOfDigits fr, fr.length)
    else none
  | _ => none

/-- Python `float(...)` on an (already stripped) string, restricted to
plain decimal literals (the forms comment counts take): the literal's
exact value rounded to the nearest IEEE-754 binary64, exactly as the
CPython parser rounds it; `none` is a `ValueError`. -/
def pyFloat (cs : List Char) : Option PyF :=
  (decimalLit cs).map (fun t => (roundFracToDouble t.2.1 t.2.2).withSign t.1)

/-- Binary64 multiplication of a Python float by the exactly
representable 10000: the exact product `m·10000·2^e` rounded to the
nearest binary64 (ties to even; already-representable products are
exact), overflowing to infinity. -/
def PyF.mul10000 : PyF → PyF
  | .inf sg => .inf sg
  | .finite sg m e =>
    let P := m * 10000
    if P = 0 then .finite sg 0 0
    else
      let L : Int := (bitlen P : Int) - 1 + e
      let e2 := max (L - 52) (-1074)
      if e2 ≤ e then
        if 0 ≤ e ∧ 2 ^ 1024 ≤ P * 2 ^ e.toNat then .inf sg
        else .finite sg P e
      else
        let sh := (e2 - e).toNat
        let m2 := rndHalfEven P (2 ^ sh)
        if 0 ≤ e2 ∧ 2 ^ 1024 ≤ m2 * 2 ^ e2.toNat then .inf sg
        else .finite sg m2 e2

/-- Python `int(...)` on a float: truncation toward zero; an infinite
argument raises `OverflowError` (`none`). -/
def PyF.toInt : PyF → Option Int
  | .inf _ => none
  | .finite sg m e =>
    let mag : Nat := if 0 ≤ e then m * 2 ^ e.toNat else m / 2 ^ (-e).toNat
    some (if sg then -(mag : Int) else (mag : Int))

/-- Python `int(x)` on an exact rational: truncation toward zero (floor
for non-negative values, ceiling for negative ones).  Used to express
the claim's idealized exact-arithmetic scaling, which the binary64
pipeline above does not reproduce bit-for-bit. -/
def intTrunc (q : ℚ) : Int := if 0 ≤ q then ⌊q⌋ else ⌈q⌉

/-- The argument of `parse_comment_count`: a native integer, a string,
or any other JSON value. -/
inductive CountInput where
  | int (n : Int)
  | str (s : List Char)
  | other
deriving Repr, DecidableEq

/-- `parse_comment_count`: an integer is returned as is; a string is
stripped, then — if it contains `万` — the remainder (with every `万`
removed, re-stripped) is float-parsed and the float is scaled by 10000
in binary64 arithmetic and truncated by `int(...)`; otherwise, if its
lower-casing contains `w`, the remainder with every `w`/`W` removed is
treated the same way; otherwise the string must be a plain integer.  A
parse failure or an infinite product (the `except` branch) and any
other input type give 0. -/
def parse_comment_count (count : CountInput) : Int :=
  match count with
  | .int n => n
  | .other => 0
  | .str s0 =>
    let s := trimChars s0
    if s.contains '万' then
      match pyFloat (trimChars (s.filter (fun c => c ≠ '万'))) with
      | some f =>
        match (PyF.mul10000 f).toInt with
        | some n => n
        | none => 0
      | none => 0
    else if (s.map Char.toLower).contains 'w' then
      match pyFloat (trimChars ((s.filter (fun c => c ≠ 'w')).filter
          (fun c => c ≠ 'W'))) with
      | some f =>
        match (PyF.mul10000 f).toInt with
        | some n => n
        | none => 0
      | none => 0
    else
      match pyInt s with
      | some n => n
      | none => 0

/-! ## Claim C9: the comment-count parser -/

/-- C9, counterexample.  The claimed exact factor-10000 rule fails on
`"0.0003万"`: the code computes `int(float('0.0003') * 10000)` in
binary64 arithmetic, where `float('0.0003') · 10000` rounds to
`2.9999999999999996`, so the parser returns 2 — while the remainder's
exact decimal value is `3/10^4`, whose exact scaling by 10000
truncates to 3. -/
theorem C9_counterexample :
    parse_comment_count (.str "0.0003万".toList) = 2 ∧
    decimalLit (trimChars ((trimChars "0.0003万".toList).filter
      (fun c => c ≠ '万'))) = some (false, 3, 4) ∧
    intTrunc ((3 : ℚ) / 10 ^ 4 * 10000) = 3 ∧
    parse_comment_count (.str "0.0003万".toList) ≠
      intTrunc ((3 : ℚ) / 10 ^ 4 * 10000) := by
  have h1 : parse_comment_count (.str "0.0003万".toList) = 2 := by decide
  have h3 : intTrunc ((3 : ℚ) / 10 ^ 4 * 10000) = 3 := by
    simp [intTrunc]
    norm_num
  exact ⟨h1, by decide, h3, by rw [h1, h3]; decide⟩

/-- C9 as amended.  `parse_comment_count` maps a native integer to
itself and a plain integer string to that integer; a string carrying
the suffix `万` or `w`/`W` has its prefixed number scaled by 10000 in
IEEE-754 binary64 floating-point arithmetic (`int(float(num) * 10000)`)
with truncation toward zero — which agrees with exact decimal scaling
on the quoted instances (`"2.1万"` → 21000, `"3.5w"` → 35000, `"1234"`
→ 1234) but can differ from it by one unit on other inputs.  The two
general clauses state the binary64 factor-10000 rule for any string
whose suffix-stripped remainder float-parses to `f` with finite scaled
result `n`. -/
theorem C9_parse_comment_count_amended :
    (∀ n : Int, parse_comment_count (.int n) = n) ∧
    parse_comment_count (.str "1234".toList) = 1234 ∧
    parse_comment_count (.str "2.1万".toList) = 21000 ∧
    parse_comment_count (.str "3.5w".toList) = 35000 ∧
    (∀ (s : List Char) (f : PyF) (n : Int),
      (trimChars s).contains '万' = true →
      pyFloat (trimChars ((trimChars s).filter (fun c => c ≠ '万'))) = some f →
      (PyF.mul10000 f).toInt = some n →
      parse_comment_count (.str s) = n) ∧
    (∀ (s : List Char) (f : PyF) (n : Int),
      (trimChars s).contains '万' = false →
      ((trimChars s).map Char.toLower).contains 'w' = true →
      pyFloat (trimChars (((trimChars s).filter (fun c => c ≠ 'w')).filter
        (fun c => c ≠ 'W'))) = some f →
      (PyF.mul10000 f).toInt = some n →
      parse_comment_count (.str s) = n) := by
  refine ⟨fun n => rfl, by decide, by decide, by decide, ?_, ?_⟩
  · intro s f n h1 h2 h3
    simp only [parse_comment_count]
    rw [if_pos h1, h2]
    dsimp only
    rw [h3]
  · intro s f n h1 h2 h3 h4
    simp only [parse_comment_count]
    rw [if_neg (fun hc => Bool.noConfusion (h1 ▸ hc)), if_pos h2, h3]
    dsimp only
    rw [h4]

/-- Witness for the amended C9's general `万` clause at the concrete
string `"2.1万"`: `float('2.1')` is `4728779608739021·2^-51`, its
binary64 product with 10000 is exactly `21000.0`
(`5772436045824000·2^-38`), and `int` of it is 21000. -/
theorem C9_parse_comment_count_amended_witness :
    ((trimChars "2.1万".toList).contains '万' = true ∧
      pyFloat (trimChars ((trimChars "2.1万".toList).filter
        (fun c => c ≠ '万'))) =
        some (PyF.finite false 4728779608739021 (-51)) ∧
      (PyF.mul10000 (PyF.finite false 4728779608739021 (-51))).toInt =
        some 21000) ∧
    parse_comment_count (.str "2.1万".toList) = 21000 :=
  ⟨⟨by decide, by decide, by decide⟩,
    C9_parse_comment_count_amended.2.2.2.2.1 "2.1万".toList
      (PyF.finite false 4728779608739021 (-51)) 21000
      (by decide) (by decide) (by decide)⟩

/-! # Part 3: the top-level comment walk
(`JsonToFullData.save_comments_streaming`, `src/json_to_full_data.py`)

The per-page network call `get_note_out_comment` (through the retry
wrapper) is modelled by a server oracle from cursors to responses;
`none` covers both a failed request and a malformed response (missing
`data` / `comments`), all of which break out of the loop before any
cursor is persisted.  The walk is rendered as the trace of its
fetch/persist events; the page-processing body (comment emission) is
studied separately in Part 4. -/

/-- One top-level comment page: the comment list, the `has_more` flag
and the optional `cursor` field of `data`. -/
structure OutPage where
  comments : List Nat
  has_more : Bool
  cursor : Option String
deriving Repr, DecidableEq

/-- Observable events of the walk: issuing a fetch with a cursor, and
persisting `progress.comments.last_cursor` via
`update_comments_progress(..., last_cursor=...)`. -/
inductive WalkEv where
  | fetch (c : String)
  | persistCursor (c : String)
deriving Repr, DecidableEq

/-- The fetch/persist trace of the `while True` page loop of
`save_comments_streaming`, starting from cursor `cursor`.  Per
iteration: fetch the page; on failure or malformed data, break; with an
empty comment list, break; after processing, if `has_more` is false
persist the current cursor and finish; otherwise, if the response
carries a `cursor`, persist it as the new `last_cursor` *before* the
next fetch uses it; with `has_more` but no cursor field, persist the
current cursor and finish.  `fuel` bounds the number of pages (the
theorems hold for every fuel). -/
def walkTrace (server : String → Option OutPage) : Nat → String → List WalkEv
  | 0, _ => []
  | fuel + 1, cursor =>
    WalkEv.fetch cursor ::
      match server cursor with
      | none => []
      | some p =>
        if p.comments.isEmpty then []
        else if p.has_more = false then [WalkEv.persistCursor cursor]
        else
          match p.cursor with
          | some nc => WalkEv.persistCursor nc :: walkTrace server fuel nc
          | none => [WalkEv.persistCursor cursor]

/-- The resume logic at the top of `save_comments_streaming`: a stored
non-empty `last_cursor` becomes the starting cursor, otherwise the walk
starts from the beginning (`''`). -/
def resumeCursor (stored : Option String) : String :=
  match stored with
  | some c => if c = "" then "" else c
  | none => ""

/-- Every fetch event after the first is immediately preceded by a
persist of exactly the fetched cursor. -/
theorem walkTrace_fetch_preceded (server : String → Option OutPage) :
    ∀ (fuel : Nat) (start : String) (i : Nat) (c : String),
      (walkTrace server fuel start)[i + 1]? = some (.fetch c) →
      (walkTrace server fuel start)[i]? = some (.persistCursor c) := by
  intro fuel
  induction fuel with
  | zero => intro start i c h; simp [walkTrace] at h
  | succ n ih =>
    intro start i c h
    rw [walkTrace] at h ⊢
    cases hs : server start with
    | none =>
      cases i <;> simp [hs] at h
    | some p =>
      rw [hs] at h
      dsimp only at h ⊢
      by_cases hempty : p.comments.isEmpty
      · rw [if_pos hempty] at h
        cases i <;> simp at h
      · rw [if_neg hempty] at h ⊢
        by_cases hmore : p.has_more = false
        · rw [if_pos hmore] at h
          cases i <;> simp at h
        · rw [if_neg hmore] at h ⊢
          cases hc : p.cursor with
          | none =>
            rw [hc] at h
            dsimp only at h
            cases i <;> simp at h
          | some nc =>
            rw [hc] at h
            dsimp only at h ⊢
            cases i with
            | zero => simp at h
            | succ j =>
              simp only [List.getElem?_cons_succ] at h ⊢
              cases j with
              | zero =>
                have h0 : (walkTrace server n nc)[0]? = some (.fetch c) := h
                cases n with
                | zero => simp [walkTrace] at h0
                | succ n2 =>
                  rw [walkTrace] at h0
                  simp only [List.getElem?_cons_zero, Option.some.injEq] at h0
                  injection h0 with h1
                  simp [h1]
              | succ k =>
                simp only [List.getElem?_cons_succ] at h ⊢
                exact ih nc k c h

/-- If anything follows a persist event, it is the fetch of exactly the
cursor just persisted: no persisted cursor is skipped. -/
theorem walkTrace_persist_then_fetch (server : String → Option OutPage) :
    ∀ (fuel : Nat) (start : String) (i : Nat) (c : String) (ev : WalkEv),
      (walkTrace server fuel start)[i]? = some (.persistCursor c) →
      (walkTrace server fuel start)[i + 1]? = some ev → ev = .fetch c := by
  intro fuel
  induction fuel with
  | zero => intro start i c ev h1 h2; simp [walkTrace] at h1
  | succ n ih =>
    intro start i c ev h1 h2
    rw [walkTrace] at h1 h2
    cases hs : server start with
    | none => cases i <;> simp [hs] at h1
    | some p =>
      rw [hs] at h1 h2
      dsimp only at h1 h2
      by_cases hempty : p.comments.isEmpty
      · rw [if_pos hempty] at h1
        cases i <;> simp at h1
      · rw [if_neg hempty] at h1 h2
        by_cases hmore : p.has_more = false
        · rw [if_pos hmore] at h1 h2
          cases i with
          | zero => simp at h1
          | succ j =>
            cases j <;> simp at h1 h2
        · rw [if_neg hmore] at h1 h2
          cases hc : p.cursor with
          | none =>
            rw [hc] at h1 h2
            dsimp only at h1 h2
            cases i with
            | zero => simp at h1
            | succ j => cases j <;> simp at h1 h2
          | some nc =>
            rw [hc] at h1 h2
            dsimp only at h1 h2
            cases i with
            | zero => simp at h1
            | succ j =>
              simp only [List.getElem?_cons_succ] at h1 h2
              cases j with
              | zero =>
                simp only [List.getElem?_cons_zero, Option.some.injEq] at h1
                injection h1 with h1e
                subst h1e
                cases n with
                | zero => simp [walkTrace] at h2
                | succ n2 =>
                  rw [walkTrace] at h2
                  simp only [List.getElem?_cons_zero, Option.some.injEq] at h2
                  exact h2.symm
              | succ k =>
                simp only [List.getElem?_cons_succ] at h1
                exact ih nc k c ev h1 h2

/-- Every successfully processed page whose response has `has_more` and
carries a next cursor `nc` is immediately followed, in the trace, by the
persist of `nc` — before the next fetch is issued. -/
theorem walkTrace_page_persist (server : String → Option OutPage) :
    ∀ (fuel : Nat) (start : String) (i : Nat) (c : String) (p : OutPage)
      (nc : String),
      (walkTrace server fuel start)[i]? = some (.fetch c) →
      server c = some p → p.comments.isEmpty = false → p.has_more = true →
      p.cursor = some nc →
      (walkTrace server fuel start)[i + 1]? = some (.persistCursor nc) := by
  intro fuel
  induction fuel with
  | zero => intro start i c p nc h hsc he hm hcur; simp [walkTrace] at h
  | succ n ih =>
    intro start i c p nc h hsc he hm hcur
    rw [walkTrace] at h ⊢
    cases i with
    | zero =>
      rw [List.getElem?_cons_zero, Option.some.injEq] at h
      injection h with hce
      subst hce
      rw [hsc]
      simp [he, hm, hcur]
    | succ j =>
      simp only [List.getElem?_cons_succ] at h ⊢
      cases hs : server start with
      | none => simp [hs] at h
      | some q =>
        rw [hs] at h
        dsimp only at h ⊢
        by_cases hempty : q.comments.isEmpty
        · rw [if_pos hempty] at h
          simp at h
        · rw [if_neg hempty] at h ⊢
          by_cases hmore : q.has_more = false
          · rw [if_pos hmore] at h ⊢
            cases j <;> simp at h
          · rw [if_neg hmore] at h ⊢
            cases hq : q.cursor with
            | none =>
              rw [hq] at h
              dsimp only at h
              cases j <;> simp at h
            | some nq =>
              rw [hq] at h
              dsimp only at h ⊢
              cases j with
              | zero => simp at h
              | succ k =>
                simp only [List.getElem?_cons_succ] at h ⊢
                exact ih nq k c p nc h hsc he hm hcur

/-- With fuel remaining, the walk's first event is the fetch of the
starting cursor. -/
theorem walkTrace_head (server : String → Option OutPage) (fuel : Nat)
    (start : String) (h : 0 < fuel) :
    (walkTrace server fuel start).head? = some (.fetch start) := by
  cases fuel with
  | zero => exact absurd h (by omega)
  | succ n => rw [walkTrace]; rfl

/-! ## Claim C1: no-skip cursor discipline of the top-level walk -/

/-- C1.  (i) On resume, a stored non-empty `last_cursor` is exactly the
first cursor fetched; (ii) with fuel remaining, the first event is the
fetch of the starting cursor; (iii) every successfully processed page
with `has_more` and next cursor `nc` is followed immediately by the
persist of `progress.comments.last_cursor := nc`, before any further
event; (iv) every fetch after the first is immediately preceded by the
persist of exactly the cursor it uses; (v) whenever the walk continues
past a persist, the very next event is the fetch of exactly the cursor
persisted — no server-returned cursor is ever skipped. -/
theorem C1_cursor_discipline (server : String → Option OutPage)
    (fuel : Nat) (stored : Option String) (start : String) :
    (∀ c, stored = some c → c ≠ "" → resumeCursor stored = c) ∧
    (0 < fuel →
      (walkTrace server fuel (resumeCursor stored)).head? =
        some (.fetch (resumeCursor stored))) ∧
    (∀ (i : Nat) (c : String) (p : OutPage) (nc : String),
      (walkTrace server fuel start)[i]? = some (.fetch c) →
      server c = some p → p.comments.isEmpty = false →
      p.has_more = true → p.cursor = some nc →
      (walkTrace server fuel start)[i + 1]? = some (.persistCursor nc)) ∧
    (∀ (i : Nat) (c : String),
      (walkTrace server fuel start)[i + 1]? = some (.fetch c) →
      (walkTrace server fuel start)[i]? = some (.persistCursor c)) ∧
    (∀ (i : Nat) (c : String) (ev : WalkEv),
      (walkTrace server fuel start)[i]? = some (.persistCursor c) →
      (walkTrace server fuel start)[i + 1]? = some ev → ev = .fetch c) := by
  refine ⟨?_, walkTrace_head server fuel (resumeCursor stored),
    fun i c p nc => walkTrace_page_persist server fuel start i c p nc,
    fun i c => walkTrace_fetch_preceded server fuel start i c,
    fun i c ev => walkTrace_persist_then_fetch server fuel start i c ev⟩
  intro c hc hne
  subst hc
  simp [resumeCursor, hne]

/-- A two-page server for the C1 witness: the first page (cursor `""`)
has more comments and hands out cursor `"A"`; the `"A"` page is the
last. -/
def server1 : String → Option OutPage := fun c =>
  if c = "" then some { comments := [1], has_more := true, cursor := some "A" }
  else if c = "A" then
    some { comments := [2], has_more := false, cursor := some "B" }
  else none

/-- Witness for C1 on `server1`: the resumed cursor is the stored one,
the first event fetches it, the first page's `"A"` cursor is persisted
right after its fetch, and the second fetch uses exactly `"A"`. -/
theorem C1_cursor_discipline_witness :
    resumeCursor (some "A") = "A" ∧
    (walkTrace server1 3 (resumeCursor (some "A"))).head? =
      some (.fetch (resumeCursor (some "A"))) ∧
    (walkTrace server1 3 "")[0 + 1]? = some (.persistCursor "A") ∧
    (walkTrace server1 3 "")[1]? = some (.persistCursor "A") ∧
    WalkEv.fetch "A" = WalkEv.fetch "A" :=
  ⟨(C1_cursor_discipline server1 3 (some "A") "").1 "A" rfl (by decide),
   (C1_cursor_discipline server1 3 (some "A") "").2.1 (by decide),
   (C1_cursor_discipline server1 3 (some "A") "").2.2.1 0 ""
     { comments := [1], has_more := true, cursor := some "A" } "A"
     (by decide) (by decide) (by decide) (by decide) (by decide),
   (C1_cursor_discipline server1 3 (some "A") "").2.2.2.1 1 "A" (by decide),
   (C1_cursor_discipline server1 3 (some "A") "").2.2.2.2 1 "A" (.fetch "A")
     (by decide) (by decide)⟩

/-! # Part 4: the recursive sub-comment walker
(`XHS_Apis.get_note_all_inner_comment_with_provider`,
`src/apis/xhs_pc_apis.py`, driven per top comment by
`save_comments_streaming`)

A comment is a tree node carrying its id, its `sub_comment_count`
field, the `sub_comments` list already present on the object (the
server-side preview; empty on every freshly fetched reply), and the full
reply list the server returns when the walker pages through this
comment's replies.  The walk is modelled on its success path (no
rate-limit retries, no fetch errors), and its observable output is the
sequence of `save_callback(comment, level)` emissions as `(id, level)`
pairs. -/

/-- A comment with its server-side data. -/
inductive CTree where
  | node (id : Nat) (subCount : Nat) (pre : List CTree) (children : List CTree)

/-- The comment's id. -/
def CTree.id : CTree → Nat
  | .node i _ _ _ => i

mutual
/-- The walker: at `level > max_level` it stops; with
`sub_comment_count = 0` it returns at once; when the preview already
reaches the expected count it only recurses into the preview (emitting
nothing for the preview entries themselves); otherwise it pages through
the server's reply list — emitting every direct reply at the current
`level` as the pages arrive — installs the fetched list as
`sub_comments`, and only then expands each reply's own subtree in
order at `level + 1`. -/
def expandProvider (maxLevel : Nat) : Nat → CTree → List (Nat × Nat)
  | level, .node _ sc pre children =>
    if maxLevel < level then []
    else if sc = 0 then []
    else if sc ≤ pre.length then expandList maxLevel (level + 1) pre
    else
      children.map (fun c => (c.id, level)) ++
        expandList maxLevel (level + 1) children

def expandList (maxLevel : Nat) : Nat → List CTree → List (Nat × Nat)
  | _, [] => []
  | level, t :: ts =>
    expandProvider maxLevel level t ++ expandList maxLevel level ts
end

/-- The per-page body of `save_comments_streaming`: each top comment is
written to the sink at level 1, then — when its `sub_comment_count` is
positive — the walker is started on it at level 2 with `max_level`
10. -/
def walkTop (maxLevel : Nat) (comments : List CTree) : List (Nat × Nat) :=
  comments.flatMap (fun t =>
    match t with
    | .node i sc _ _ =>
      (i, 1) :: (if 0 < sc then expandProvider maxLevel 2 t else []))

/-- The deep-reply example of the claim: top comment `T` (id 0,
`sub_comment_count` 2) with replies `r1` (id 1, one reply `rr1`, id 3)
and `r2` (id 2). -/
def tree_rr1 : CTree := .node 3 0 [] []

def tree_r1 : CTree := .node 1 1 [] [tree_rr1]

def tree_r2 : CTree := .node 2 0 [] []

def treeT : CTree := .node 0 2 [] [tree_r1, tree_r2]

/-! ## Claim C2: emission order of the walk -/

/-- C2, counterexample.  On the claim's own example the sink receives
`T, r1, r2, rr1` with levels `1, 2, 2, 3` — not `T, r1, rr1, r2` with
levels `1, 2, 3, 2` as claimed: both direct replies are emitted when
`T`'s reply pages are fetched, before `r1`'s subtree is expanded. -/
theorem C2_counterexample :
    walkTop 10 [treeT] = [(0, 1), (1, 2), (2, 2), (3, 3)] ∧
    walkTop 10 [treeT] ≠ [(0, 1), (1, 2), (3, 3), (2, 2)] := by
  constructor
  · rfl
  · decide

/-- C2 as amended: (i) when a comment's replies must be fetched, all its
direct replies are emitted as one contiguous block at the current level,
in fetch order, before any deeper descendant; (ii) only then is each
reply's subtree fully expanded before the next sibling's subtree
expansion starts (sibling expansions are contiguous and in order);
(iii) on the claim's example the emission order is therefore
`T, r1, r2, rr1` with levels `1, 2, 2, 3`. -/
theorem C2_depth_first_amended :
    (∀ (maxLevel level i sc : Nat) (children : List CTree),
      level ≤ maxLevel → 0 < sc →
      expandProvider maxLevel level (.node i sc [] children) =
        children.map (fun c => (c.id, level)) ++
          expandList maxLevel (level + 1) children) ∧
    (∀ (maxLevel level : Nat) (a b : CTree) (rest : List CTree),
      expandList maxLevel level (a :: b :: rest) =
        expandProvider maxLevel level a ++
          (expandProvider maxLevel level b ++ expandList maxLevel level rest)) ∧
    walkTop 10 [treeT] = [(0, 1), (1, 2), (2, 2), (3, 3)] := by
  refine ⟨?_, fun maxLevel level a b rest => rfl, rfl⟩
  intro maxLevel level i sc children hlev hsc
  rw [expandProvider]
  rw [if_neg (by omega), if_neg (by omega), if_neg (by simp; omega)]

/-- Witness for C2 as amended at the example tree `T`. -/
theorem C2_depth_first_amended_witness :
    (2 ≤ 10 ∧ 0 < 2) ∧
    expandProvider 10 2 (.node 0 2 [] [tree_r1, tree_r2]) =
      [tree_r1, tree_r2].map (fun c => (c.id, 2)) ++
        expandList 10 3 [tree_r1, tree_r2] :=
  ⟨⟨by decide, by decide⟩,
   C2_depth_first_amended.1 10 2 0 2 [tree_r1, tree_r2] (by decide) (by decide)⟩

/-! # Part 5: atomic progress persistence
(`ProgressManager.save_progress`, `src/progress_manager.py`)

The on-disk state is the pair of `progress.json` (`main`) and
`progress.json.tmp` (`temp`); file contents are abstract values of a
type `α`.  One attempt of `save_progress` opens and writes the temp file
(a crash mid-write leaves it partial), flushes and fsyncs it, and then
atomically renames it over `progress.json` (`os.replace`) — the only
step that touches `main`, and it installs the complete new content in
one step.  An attempt can end in success, in a caught exception after
`k` of its steps (the `except` branch then deletes the temp file and the
loop retries, up to 3 attempts in all), or in a kill after `k` steps,
which ends the run with no cleanup.  The run is rendered as the list of
every intermediate disk state — each one a possible interruption
point. -/

/-- Temp-file content: partially written, or completely written and
fsynced with the new value. -/
inductive TempContent (α : Type) where
  | partialData
  | full (a : α)
deriving Repr, DecidableEq

/-- The on-disk state: `progress.json` (absent on a fresh directory) and
`progress.json.tmp`. -/
structure FS (α : Type) where
  main : Option α
  temp : Option (TempContent α)
deriving Repr, DecidableEq

/-- The three disk states produced by the steps of one fully executed
attempt: after opening/while writing the temp file, after the completed
fsynced write, and after the atomic rename. -/
def attemptSteps (s : FS α) (new : α) : List (FS α) :=
  [{ s with temp := some .partialData },
   { s with temp := some (.full new) },
   { main := some new, temp := none }]

/-- How one attempt ends. -/
inductive AttemptOutcome where
  | ok
  | ioError (k : Nat)
  | crash (k : Nat)
deriving Repr, DecidableEq

/-- The result of a `save_progress` run: the trace of disk states, the
number of attempts started, and the returned value (`none` when the
process was killed mid-run). -/
structure SaveRun (α : Type) where
  states : List (FS α)
  attempts : Nat
  result : Option Bool
deriving Repr, DecidableEq

/-- The retry loop `for attempt in range(3)` of `save_progress`, driven
by the per-attempt outcomes: a completed attempt returns `True`; a
caught exception after `k` steps removes the temp file and retries; a
kill after `k` steps ends the run.  After 3 failed attempts the function
returns `False`. -/
def saveProgressRun (new : α) : Nat → FS α → List AttemptOutcome → SaveRun α
  | 0, _, _ => { states := [], attempts := 0, result := some false }
  | n + 1, s, outcomes =>
    match outcomes with
    | [] => { states := attemptSteps s new, attempts := 1, result := some true }
    | .ok :: _ => { states := attemptSteps s new, attempts := 1, result := some true }
    | .crash k :: _ =>
      { states := (attemptSteps s new).take k, attempts := 1, result := none }
    | .ioError k :: rest =>
      let visited := (attemptSteps s new).take k
      let sAfter := visited.getLastD s
      let cleaned : FS α := { sAfter with temp := none }
      let r := saveProgressRun new n cleaned rest
      { states := visited ++ cleaned :: r.states,
        attempts := r.attempts + 1,
        result := r.result }

theorem getLastD_mem_cons {β : Type} (l : List β) (d : β) :
    l.getLastD d ∈ d :: l := by
  induction l generalizing d with
  | nil => simp
  | cons x xs ih =>
    rw [List.getLastD_cons]
    exact List.mem_cons_of_mem _ (ih x)

/-- Every disk state reachable during a save run (at any interruption
point, under any outcome sequence) has `progress.json` equal either to
its pre-run content or to the complete new content. -/
theorem saveProgressRun_main_invariant (new : α) :
    ∀ (n : Nat) (s : FS α) (outcomes : List AttemptOutcome),
      ∀ x ∈ (saveProgressRun new n s outcomes).states,
        x.main = s.main ∨ x.main = some new := by
  intro n
  induction n with
  | zero => intro s outcomes x hx; simp [saveProgressRun] at hx
  | succ m ih =>
    intro s outcomes x hx
    have hsteps : ∀ y ∈ attemptSteps s new, y.main = s.main ∨ y.main = some new := by
      intro y hy
      simp only [attemptSteps, List.mem_cons, List.mem_singleton] at hy
      rcases hy with rfl | rfl | rfl | h
      · left; rfl
      · left; rfl
      · right; rfl
      · simp at h
    cases outcomes with
    | nil =>
      simp only [saveProgressRun] at hx
      exact hsteps x hx
    | cons o rest =>
      cases o with
      | ok =>
        simp only [saveProgressRun] at hx
        exact hsteps x hx
      | crash k =>
        simp only [saveProgressRun] at hx
        exact hsteps x (List.mem_of_mem_take hx)
      | ioError k =>
        simp only [saveProgressRun, List.mem_append, List.mem_cons] at hx
        have hafter : ((attemptSteps s new).take k).getLastD s ∈
            s :: attemptSteps s new := by
          rcases List.mem_cons.mp
              (getLastD_mem_cons ((attemptSteps s new).take k) s) with h | h
          · rw [h]; exact List.mem_cons_self _ _
          · exact List.mem_cons_of_mem _ (List.mem_of_mem_take h)
        have hmainafter :
            (((attemptSteps s new).take k).getLastD s).main = s.main ∨
            (((attemptSteps s new).take k).getLastD s).main = some new := by
          rcases List.mem_cons.mp hafter with h | h
          · rw [h]; left; rfl
          · exact hsteps _ h
        rcases hx with h | h | h
        · exact hsteps x (List.mem_of_mem_take h)
        · rw [h]; exact hmainafter
        · rcases ih _ rest x h with h2 | h2
          · rw [h2]; exact hmainafter
          · right; exact h2

/-- The retry loop starts at most as many attempts as its budget
(`range(3)` in the source). -/
theorem saveProgressRun_attempts_le (new : α) :
    ∀ (n : Nat) (s : FS α) (outcomes : List AttemptOutcome),
      (saveProgressRun new n s outcomes).attempts ≤ n := by
  intro n
  induction n with
  | zero => intro s outcomes; simp [saveProgressRun]
  | succ m ih =>
    intro s outcomes
    cases outcomes with
    | nil => simp [saveProgressRun]
    | cons o rest =>
      cases o with
      | ok => simp [saveProgressRun]
      | crash k => simp [saveProgressRun]
      | ioError k =>
        simp only [saveProgressRun]
        have := ih { main := (((attemptSteps s new).take k).getLastD s).main,
                     temp := none } rest
        omega

/-- When the run reports success, the last disk state has the new
content installed and the temp file gone. -/
theorem saveProgressRun_success (new : α) :
    ∀ (n : Nat) (s : FS α) (outcomes : List AttemptOutcome),
      (saveProgressRun new n s outcomes).result = some true →
      (saveProgressRun new n s outcomes).states.getLast? =
        some ⟨some new, none⟩ := by
  intro n
  induction n with
  | zero => intro s outcomes h; simp [saveProgressRun] at h
  | succ m ih =>
    intro s outcomes h
    cases outcomes with
    | nil => simp [saveProgressRun, attemptSteps]
    | cons o rest =>
      cases o with
      | ok => simp [saveProgressRun, attemptSteps]
      | crash k => simp [saveProgressRun] at h
      | ioError k =>
        simp only [saveProgressRun] at h ⊢
        have hlast := ih _ rest h
        rw [List.getLast?_append_cons]
        have hmem : ({ main := some new, temp := none } : FS α) ∈
            (saveProgressRun new m
              { main := (((attemptSteps s new).take k).getLastD s).main,
                temp := none } rest).states.getLast? := by
          rw [hlast]; rfl
        exact Option.mem_def.mp (List.mem_getLast?_cons hmem)

/-! ## Claim C5: atomic progress persistence -/

/-- C5.  A save run writes the full new content to the temp file,
fsyncs, and atomically renames it over `progress.json`, retrying a
failed attempt up to the budget of 3; consequently (i) at every
interruption point, under every outcome sequence, `progress.json` holds
either the complete pre-run content or the complete new content — never
a partial write; (ii) at most 3 attempts are started; (iii) when the run
reports success the final disk state holds the new content with the
temp file removed. -/
theorem C5_atomic_persistence {α : Type} (old : Option α)
    (t0 : Option (TempContent α)) (new : α) (outcomes : List AttemptOutcome) :
    (∀ x ∈ (saveProgressRun new 3 ⟨old, t0⟩ outcomes).states,
      x.main = old ∨ x.main = some new) ∧
    (saveProgressRun new 3 ⟨old, t0⟩ outcomes).attempts ≤ 3 ∧
    ((saveProgressRun new 3 ⟨old, t0⟩ outcomes).result = some true →
      (saveProgressRun new 3 ⟨old, t0⟩ outcomes).states.getLast? =
        some ⟨some new, none⟩) :=
  ⟨saveProgressRun_main_invariant new 3 ⟨old, t0⟩ outcomes,
   saveProgressRun_attempts_le new 3 ⟨old, t0⟩ outcomes,
   saveProgressRun_success new 3 ⟨old, t0⟩ outcomes⟩

/-- Witness for C5: a run over `Nat` contents whose first attempt dies
in an exception right after the fsynced write and whose second attempt
succeeds; the mid-write state is reachable and still shows the old
content. -/
theorem C5_atomic_persistence_witness :
    ((⟨some 1, some .partialData⟩ : FS Nat) ∈
      (saveProgressRun 2 3 (⟨some 1, none⟩ : FS Nat)
        [.ioError 2, .ok]).states) ∧
    ((⟨some 1, some .partialData⟩ : FS Nat).main = some 1 ∨
      (⟨some 1, some .partialData⟩ : FS Nat).main = some 2) ∧
    (saveProgressRun 2 3 (⟨some 1, none⟩ : FS Nat)
      [.ioError 2, .ok]).attempts ≤ 3 ∧
    (saveProgressRun 2 3 (⟨some 1, none⟩ : FS Nat)
      [.ioError 2, .ok]).result = some true ∧
    (saveProgressRun 2 3 (⟨some 1, none⟩ : FS Nat)
      [.ioError 2, .ok]).states.getLast? = some ⟨some 2, none⟩ :=
  ⟨by decide,
   (C5_atomic_persistence (some 1) none 2 [.ioError 2, .ok]).1 _ (by decide),
   (C5_atomic_persistence (some 1) none 2 [.ioError 2, .ok]).2.1,
   by decide,
   (C5_atomic_persistence (some 1) none 2 [.ioError 2, .ok]).2.2 (by decide)⟩

/-! # Part 6: progress statistics (`src/progress_manager.py`)

`notes_progress` is an association list from note id to its `status`
string in insertion order (only the status field matters to the claims;
ids are abstracted to `Nat`); `statistics` is the counter record of
`_create_new_progress`.  The mutations modelled are
`mark_note_processing` / `mark_note_completed` / `mark_note_failed`,
the backfill `_补充已存在文件到进度` performed by `is_note_completed`
when an untracked note's `_full.json` already exists, and
`get_pending_notes` (whose backfills, interim counter bumps and final
`completed`/`pending` assignments are folded into one operation, as the
final assignments overwrite the interim ones). -/

/-- The `statistics` record of `_create_new_progress`. -/
structure Statistics where
  completed : Nat := 0
  failed : Nat := 0
  skipped : Nat := 0
  processing : Nat := 0
  pending : Nat := 0
deriving Repr, DecidableEq

/-- The progress state: `notes_progress` and `statistics`. -/
structure Progress where
  notes : List (Nat × String)
  stats : Statistics
deriving Repr, DecidableEq

/-- A freshly created progress structure. -/
def freshProgress : Progress := { notes := [], stats := {} }

/-- Status lookup, `notes_progress.get(note_id)`. -/
def lookupStatus (notes : List (Nat × String)) (id : Nat) : Option String :=
  (notes.find? (fun pr => pr.1 = id)).map (fun pr => pr.2)

/-- In-place status update of an existing entry. -/
def setStatus (notes : List (Nat × String)) (id : Nat) (st : String) :
    List (Nat × String) :=
  notes.map (fun pr => if pr.1 = id then (pr.1, st) else pr)

/-- Number of entries carrying a given status. -/
def countStatus (notes : List (Nat × String)) (st : String) : Nat :=
  notes.countP (fun pr => pr.2 = st)

/-- `ProgressManager.mark_note_processing`: a new note is inserted with
status `processing`, `statistics.processing` is incremented and
`pending` decremented when positive; an already tracked note (the
re-processing branch for failed notes) has its status set to
`processing`, `failed` decremented when positive and `processing`
incremented. -/
def mark_note_processing (p : Progress) (id : Nat) : Progress :=
  match lookupStatus p.notes id with
  | none =>
    { notes := p.notes ++ [(id, "processing")]
      stats := { p.stats with
        processing := p.stats.processing + 1
        pending := if 0 < p.stats.pending then p.stats.pending - 1
                   else p.stats.pending } }
  | some _ =>
    { notes := setStatus p.notes id "processing"
      stats := { p.stats with
        failed := if 0 < p.stats.failed then p.stats.failed - 1
                  else p.stats.failed
        processing := p.stats.processing + 1 } }

/-- `ProgressManager.mark_note_completed` (no-op on untracked ids). -/
def mark_note_completed (p : Progress) (id : Nat) : Progress :=
  match lookupStatus p.notes id with
  | some _ =>
    { notes := setStatus p.notes id "completed"
      stats := { p.stats with
        processing := if 0 < p.stats.processing then p.stats.processing - 1
                      else p.stats.processing
        completed := p.stats.completed + 1 } }
  | none => p

/-- `ProgressManager.mark_note_failed` (no-op on untracked ids). -/
def mark_note_failed (p : Progress) (id : Nat) : Progress :=
  match lookupStatus p.notes id with
  | some _ =>
    { notes := setStatus p.notes id "failed"
      stats := { p.stats with
        processing := if 0 < p.stats.processing then p.stats.processing - 1
                      else p.stats.processing
        failed := p.stats.failed + 1 } }
  | none => p

/-- The backfill `_补充已存在文件到进度`: an untracked note whose full
file already exists is inserted as `completed` and the counter bumped
(no-op for tracked ids). -/
def backfillNote (p : Progress) (id : Nat) : Progress :=
  match lookupStatus p.notes id with
  | none =>
    { notes := p.notes ++ [(id, "completed")]
      stats := { p.stats with completed := p.stats.completed + 1 } }
  | some _ => p

/-- The per-URL loop of `get_pending_notes`, returning the (possibly
backfilled) notes table, `completed_count` and the pending list.  A URL
without an extractable id goes straight to the pending list; a tracked
`completed` id is counted and skipped; an untracked id whose full file
exists is backfilled, counted and skipped; everything else (including
failed notes queued for retry) joins the pending list. -/
def pendingFold (files : List Nat) :
    List (Nat × String) → List (Option Nat) →
    List (Nat × String) × Nat × List (Option Nat)
  | notes, [] => (notes, 0, [])
  | notes, none :: us =>
    let r := pendingFold files notes us
    (r.1, r.2.1, none :: r.2.2)
  | notes, some id :: us =>
    match lookupStatus notes id with
    | some st =>
      if st = "completed" then
        let r := pendingFold files notes us
        (r.1, r.2.1 + 1, r.2.2)
      else
        let r := pendingFold files notes us
        (r.1, r.2.1, some id :: r.2.2)
    | none =>
      if id ∈ files then
        let r := pendingFold files (notes ++ [(id, "completed")]) us
        (r.1, r.2.1 + 1, r.2.2)
      else
        let r := pendingFold files notes us
        (r.1, r.2.1, some id :: r.2.2)

/-- `ProgressManager.get_pending_notes`: run the per-URL loop, then
assign `statistics.completed := completed_count` and
`statistics.pending := len(pending_notes)`. -/
def get_pending_notes (p : Progress) (urls : List (Option Nat))
    (files : List Nat) : Progress :=
  let r := pendingFold files p.notes urls
  { notes := r.1
    stats := { p.stats with completed := r.2.1, pending := r.2.2.length } }

/-- The progress-manager mutations named by the claim. -/
inductive POp where
  | markProcessing (id : Nat)
  | markCompleted (id : Nat)
  | markFailed (id : Nat)
  | backfill (id : Nat)
  | getPending (urls : List (Option Nat)) (files : List Nat)
deriving Repr, DecidableEq

/-- Apply one mutation. -/
def applyOp (p : Progress) : POp → Progress
  | .markProcessing id => mark_note_processing p id
  | .markCompleted id => mark_note_completed p id
  | .markFailed id => mark_note_failed p id
  | .backfill id => backfillNote p id
  | .getPending urls files => get_pending_notes p urls files

/-- Apply a sequence of mutations. -/
def runOps (p : Progress) (ops : List POp) : Progress := ops.foldl applyOp p

/-- The ids extractable from a URL list. -/
def idsOf (urls : List (Option Nat)) : List Nat := urls.filterMap (fun u => u)

/-- The note lifecycle discipline of the driver
(`process_json_to_full_data`): a note is marked `processing` only while
untracked or `failed`; `completed`/`failed` are only applied to a note
in `processing`; backfills only concern untracked ids; and a pending
recomputation is fed URLs with pairwise distinct extracted ids covering
every tracked note. -/
def stepOk (p : Progress) : POp → Bool
  | .markProcessing id =>
    match lookupStatus p.notes id with
    | none => true
    | some st => st = "failed"
  | .markCompleted id => lookupStatus p.notes id = some "processing"
  | .markFailed id => lookupStatus p.notes id = some "processing"
  | .backfill id => lookupStatus p.notes id = none
  | .getPending urls _ =>
    decide ((idsOf urls).Nodup ∧
      ∀ k ∈ p.notes.map Prod.fst, k ∈ idsOf urls)

/-- A mutation sequence every step of which obeys the lifecycle. -/
def disciplined : Progress → List POp → Bool
  | _, [] => true
  | p, op :: rest => stepOk p op && disciplined (applyOp p op) rest

/-- The statistics invariant: distinct note ids, and the `completed`,
`failed` and `processing` counters agree with the aggregate of status
values across `notes_progress`. -/
def StatsInv (p : Progress) : Prop :=
  (p.notes.map Prod.fst).Nodup ∧
  p.stats.completed = countStatus p.notes "completed" ∧
  p.stats.failed = countStatus p.notes "failed" ∧
  p.stats.processing = countStatus p.notes "processing"

/-! ## Lemmas about the progress table -/

theorem lookupStatus_cons (k : Nat) (s : String) (rest : List (Nat × String))
    (id : Nat) :
    lookupStatus ((k, s) :: rest) id =
      if k = id then some s else lookupStatus rest id := by
  by_cases h : k = id
  · simp [lookupStatus, List.find?_cons_of_pos, h]
  · simp [lookupStatus, List.find?_cons_of_neg, h]

theorem lookupStatus_eq_none {notes : List (Nat × String)} {id : Nat} :
    lookupStatus notes id = none ↔ id ∉ notes.map Prod.fst := by
  induction notes with
  | nil => simp [lookupStatus]
  | cons pr rest ih =>
    obtain ⟨k, s⟩ := pr
    rw [lookupStatus_cons]
    by_cases h : k = id
    · simp [h]
    · simp [h, ih, Ne.symm h]

theorem lookupStatus_mem {notes : List (Nat × String)} {id : Nat} {st : String}
    (h : lookupStatus notes id = some st) : (id, st) ∈ notes := by
  induction notes with
  | nil => simp [lookupStatus] at h
  | cons pr rest ih =>
    obtain ⟨k, s⟩ := pr
    rw [lookupStatus_cons] at h
    by_cases hk : k = id
    · rw [if_pos hk] at h
      injection h with h
      subst hk
      subst h
      exact List.mem_cons_self _ _
    · rw [if_neg hk] at h
      exact List.mem_cons_of_mem _ (ih h)

theorem countStatus_cons (k : Nat) (s : String) (rest : List (Nat × String))
    (st2 : String) :
    countStatus ((k, s) :: rest) st2 =
      countStatus rest st2 + (if s = st2 then 1 else 0) := by
  by_cases h : s = st2 <;> simp [countStatus, List.countP_cons, h]

theorem countStatus_append (l1 l2 : List (Nat × String)) (st2 : String) :
    countStatus (l1 ++ l2) st2 = countStatus l1 st2 + countStatus l2 st2 := by
  simp [countStatus, List.countP_append]

theorem countStatus_pos_of_lookup {notes : List (Nat × String)} {id : Nat}
    {st : String} (h : lookupStatus notes id = some st) :
    1 ≤ countStatus notes st := by
  have hm := lookupStatus_mem h
  have : 0 < notes.countP (fun pr => pr.2 = st) :=
    List.countP_pos_iff.mpr ⟨(id, st), hm, by simp⟩
  simpa [countStatus] using this

theorem setStatus_of_not_mem {notes : List (Nat × String)} {id : Nat}
    (h : id ∉ notes.map Prod.fst) (st : String) :
    setStatus notes id st = notes := by
  induction notes with
  | nil => rfl
  | cons pr rest ih =>
    simp only [List.map_cons, List.mem_cons, not_or] at h
    simp only [setStatus, List.map_cons]
    rw [if_neg (fun hc => h.1 hc.symm)]
    rw [show List.map
        (fun pr => if pr.1 = id then (pr.1, st) else pr) rest =
      setStatus rest id st from rfl]
    rw [ih h.2]

theorem setStatus_keys (notes : List (Nat × String)) (id : Nat) (st : String) :
    (setStatus notes id st).map Prod.fst = notes.map Prod.fst := by
  induction notes with
  | nil => rfl
  | cons pr rest ih =>
    obtain ⟨k, s⟩ := pr
    by_cases h : k = id <;> simp [setStatus, h] at ih ⊢ <;> exact ih

theorem countStatus_setStatus {notes : List (Nat × String)}
    (hnd : (notes.map Prod.fst).Nodup) {id : Nat} {st0 : String}
    (h : lookupStatus notes id = some st0) (st st2 : String) :
    countStatus (setStatus notes id st) st2 + (if st0 = st2 then 1 else 0) =
      countStatus notes st2 + (if st = st2 then 1 else 0) := by
  induction notes with
  | nil => simp [lookupStatus] at h
  | cons pr rest ih =>
    obtain ⟨k, s⟩ := pr
    rw [lookupStatus_cons] at h
    simp only [List.map_cons, List.nodup_cons] at hnd
    by_cases hk : k = id
    · rw [if_pos hk] at h
      injection h with h
      subst h
      subst hk
      have hset : setStatus ((k, s) :: rest) k st = (k, st) :: rest := by
        simp only [setStatus, List.map_cons]
        rw [if_pos trivial]
        rw [show List.map
            (fun pr => if pr.1 = k then (pr.1, st) else pr) rest =
          setStatus rest k st from rfl]
        rw [setStatus_of_not_mem hnd.1 st]
      rw [hset, countStatus_cons, countStatus_cons]
      omega
    · rw [if_neg hk] at h
      have hset : setStatus ((k, s) :: rest) id st =
          (k, s) :: setStatus rest id st := by
        simp only [setStatus, List.map_cons]
        rw [if_neg hk]
      rw [hset, countStatus_cons, countStatus_cons]
      have := ih hnd.2 h
      omega

theorem idsOf_none_cons (us : List (Option Nat)) :
    idsOf (none :: us) = idsOf us := by simp [idsOf]

theorem idsOf_some_cons (id : Nat) (us : List (Option Nat)) :
    idsOf (some id :: us) = id :: idsOf us := by simp [idsOf]

/-- Completed entries of the table whose key is a given id. -/
def countIdCompleted (notes : List (Nat × String)) (id : Nat) : Nat :=
  notes.countP (fun pr => decide (pr.1 = id) && decide (pr.2 = "completed"))

/-- Completed entries of the table whose key lies in a given id list. -/
def countCompletedIn (notes : List (Nat × String)) (L : List Nat) : Nat :=
  notes.countP (fun pr => decide (pr.1 ∈ L) && decide (pr.2 = "completed"))

set_option linter.unnecessarySeqFocus false in
theorem countCompletedIn_cons_split (notes : List (Nat × String)) (id : Nat)
    (L : List Nat) (h : id ∉ L) :
    countCompletedIn notes (id :: L) =
      countIdCompleted notes id + countCompletedIn notes L := by
  simp only [countCompletedIn, countIdCompleted]
  induction notes with
  | nil => rfl
  | cons pr rest ih =>
    simp only [List.countP_cons]
    rw [ih]
    by_cases h1 : pr.1 = id
    · by_cases h3 : pr.2 = "completed" <;> simp [h1, h3, h] <;> omega
    · by_cases h2 : pr.1 ∈ L <;> by_cases h3 : pr.2 = "completed" <;>
        simp [h1, h2, h3] <;> omega

theorem countIdCompleted_not_mem {notes : List (Nat × String)} {id : Nat}
    (h : id ∉ notes.map Prod.fst) : countIdCompleted notes id = 0 := by
  simp only [countIdCompleted, List.countP_eq_zero]
  intro pr hpr
  simp only [Bool.and_eq_true, decide_eq_true_eq, not_and]
  intro h1 _
  exact h (List.mem_map.mpr ⟨pr, hpr, h1⟩)

theorem countIdCompleted_append (l1 l2 : List (Nat × String)) (id : Nat) :
    countIdCompleted (l1 ++ l2) id =
      countIdCompleted l1 id + countIdCompleted l2 id := by
  simp [countIdCompleted, List.countP_append]

theorem countIdCompleted_lookup {notes : List (Nat × String)}
    (hnd : (notes.map Prod.fst).Nodup) {id : Nat} {st0 : String}
    (h : lookupStatus notes id = some st0) :
    countIdCompleted notes id = if st0 = "completed" then 1 else 0 := by
  induction notes with
  | nil => simp [lookupStatus] at h
  | cons pr rest ih =>
    obtain ⟨k, s⟩ := pr
    rw [lookupStatus_cons] at h
    simp only [List.map_cons, List.nodup_cons] at hnd
    by_cases hk : k = id
    · rw [if_pos hk] at h
      injection h with h
      subst h
      subst hk
      have hrest : countIdCompleted rest k = 0 := countIdCompleted_not_mem hnd.1
      simp only [countIdCompleted, List.countP_cons] at hrest ⊢
      rw [hrest]
      by_cases h3 : s = "completed" <;> simp [h3]
    · rw [if_neg hk] at h
      have := ih hnd.2 h
      simp only [countIdCompleted, List.countP_cons] at this ⊢
      rw [this]
      simp [hk]

theorem countCompletedIn_of_cover {notes : List (Nat × String)} {L : List Nat}
    (h : ∀ pr ∈ notes, pr.1 ∈ L) :
    countCompletedIn notes L = countStatus notes "completed" := by
  simp only [countCompletedIn, countStatus]
  induction notes with
  | nil => rfl
  | cons pr rest ih =>
    simp only [List.countP_cons]
    rw [ih (fun pr2 hpr2 => h pr2 (List.mem_cons_of_mem _ hpr2))]
    have h1 := h pr (List.mem_cons_self _ _)
    by_cases h3 : pr.2 = "completed" <;> simp [h1, h3]

theorem countStatus_all_completed {extra : List (Nat × String)}
    (h : ∀ pr ∈ extra, pr.2 = "completed") {st2 : String}
    (hne : st2 ≠ "completed") : countStatus extra st2 = 0 := by
  simp only [countStatus, List.countP_eq_zero]
  intro pr hpr
  simp only [decide_eq_true_eq]
  rw [h pr hpr]
  exact fun hc => hne hc.symm

/-- The per-URL loop only appends to the table, and everything it
appends is a `completed` entry keyed by one of the extracted ids. -/
theorem pendingFold_notes_spec (files : List Nat) :
    ∀ (urls : List (Option Nat)) (notes : List (Nat × String)),
      ∃ extra, (pendingFold files notes urls).1 = notes ++ extra ∧
        ∀ pr ∈ extra, pr.2 = "completed" ∧ pr.1 ∈ idsOf urls := by
  intro urls
  induction urls with
  | nil => intro notes; exact ⟨[], by simp [pendingFold], by simp⟩
  | cons u us ih =>
    intro notes
    cases u with
    | none =>
      obtain ⟨extra, he, hp⟩ := ih notes
      refine ⟨extra, by simp only [pendingFold]; exact he, ?_⟩
      intro pr hpr
      refine ⟨(hp pr hpr).1, ?_⟩
      rw [idsOf_none_cons]
      exact (hp pr hpr).2
    | some id =>
      cases hl : lookupStatus notes id with
      | some st =>
        obtain ⟨extra, he, hp⟩ := ih notes
        refine ⟨extra, ?_, ?_⟩
        · simp only [pendingFold]
          rw [hl]
          dsimp only
          by_cases hst : st = "completed" <;> simp [hst, he]
        · intro pr hpr
          refine ⟨(hp pr hpr).1, ?_⟩
          rw [idsOf_some_cons]
          exact List.mem_cons_of_mem _ (hp pr hpr).2
      | none =>
        by_cases hf : id ∈ files
        · obtain ⟨extra, he, hp⟩ := ih (notes ++ [(id, "completed")])
          refine ⟨(id, "completed") :: extra, ?_, ?_⟩
          · simp only [pendingFold]
            rw [hl]
            dsimp only
            rw [if_pos hf]
            dsimp only
            rw [he]
            simp
          · intro pr hpr
            rcases List.mem_cons.mp hpr with rfl | hpr
            · exact ⟨rfl, by rw [idsOf_some_cons]; exact List.mem_cons_self _ _⟩
            · refine ⟨(hp pr hpr).1, ?_⟩
              rw [idsOf_some_cons]
              exact List.mem_cons_of_mem _ (hp pr hpr).2
        · obtain ⟨extra, he, hp⟩ := ih notes
          refine ⟨extra, ?_, ?_⟩
          · simp only [pendingFold]
            rw [hl]
            dsimp only
            rw [if_neg hf]
            exact he
          · intro pr hpr
            refine ⟨(hp pr hpr).1, ?_⟩
            rw [idsOf_some_cons]
            exact List.mem_cons_of_mem _ (hp pr hpr).2

/-- The per-URL loop preserves distinctness of the note ids (given
distinct extracted ids). -/
theorem pendingFold_keys_nodup (files : List Nat) :
    ∀ (urls : List (Option Nat)) (notes : List (Nat × String)),
      (notes.map Prod.fst).Nodup → (idsOf urls).Nodup →
      (((pendingFold files notes urls).1).map Prod.fst).Nodup := by
  intro urls
  induction urls with
  | nil => intro notes hnd _; simpa [pendingFold] using hnd
  | cons u us ih =>
    intro notes hnd hids
    cases u with
    | none =>
      rw [idsOf_none_cons] at hids
      simp only [pendingFold]
      exact ih notes hnd hids
    | some id =>
      rw [idsOf_some_cons, List.nodup_cons] at hids
      cases hl : lookupStatus notes id with
      | some st =>
        simp only [pendingFold]
        rw [hl]
        dsimp only
        by_cases hst : st = "completed" <;>
          simpa [hst] using ih notes hnd hids.2
      | none =>
        by_cases hf : id ∈ files
        · simp only [pendingFold]
          rw [hl]
          dsimp only
          rw [if_pos hf]
          dsimp only
          refine ih _ ?_ hids.2
          rw [List.map_append]
          simp only [List.map_cons, List.map_nil]
          rw [List.nodup_append]
          refine ⟨hnd, List.nodup_singleton _, ?_⟩
          intro k hk hk2
          simp only [List.mem_singleton] at hk2
          subst hk2
          exact lookupStatus_eq_none.mp hl hk
        · simp only [pendingFold]
          rw [hl]
          dsimp only
          rw [if_neg hf]
          exact ih notes hnd hids.2

/-- `completed_count` equals the number of completed entries of the
final table whose key is one of the extracted ids. -/
theorem pendingFold_completed_count (files : List Nat) :
    ∀ (urls : List (Option Nat)) (notes : List (Nat × String)),
      (notes.map Prod.fst).Nodup → (idsOf urls).Nodup →
      (pendingFold files notes urls).2.1 =
        countCompletedIn (pendingFold files notes urls).1 (idsOf urls) := by
  intro urls
  induction urls with
  | nil =>
    intro notes _ _
    simp [pendingFold, countCompletedIn, idsOf]
  | cons u us ih =>
    intro notes hnd hids
    cases u with
    | none =>
      rw [idsOf_none_cons] at hids ⊢
      simp only [pendingFold]
      exact ih notes hnd hids
    | some id =>
      rw [idsOf_some_cons] at hids ⊢
      rw [List.nodup_cons] at hids
      obtain ⟨extra, he, hp⟩ := pendingFold_notes_spec files us notes
      have hextra_not : id ∉ extra.map Prod.fst := by
        intro hmem
        obtain ⟨pr, hpr, hpr1⟩ := List.mem_map.mp hmem
        exact hids.1 (hpr1 ▸ (hp pr hpr).2)
      cases hl : lookupStatus notes id with
      | some st =>
        have hrec := ih notes hnd hids.2
        by_cases hst : st = "completed"
        · simp only [pendingFold]
          rw [hl]
          dsimp only
          rw [if_pos hst]
          dsimp only
          rw [countCompletedIn_cons_split _ _ _ hids.1]
          rw [he, countIdCompleted_append]
          rw [countIdCompleted_not_mem hextra_not]
          rw [countIdCompleted_lookup hnd hl, if_pos hst]
          rw [← he]
          omega
        · simp only [pendingFold]
          rw [hl]
          dsimp only
          rw [if_neg hst]
          dsimp only
          rw [countCompletedIn_cons_split _ _ _ hids.1]
          rw [he, countIdCompleted_append]
          rw [countIdCompleted_not_mem hextra_not]
          rw [countIdCompleted_lookup hnd hl, if_neg hst]
          rw [← he]
          omega
      | none =>
        by_cases hf : id ∈ files
        · have hnd2 : ((notes ++ [(id, "completed")]).map Prod.fst).Nodup := by
            rw [List.map_append]
            simp only [List.map_cons, List.map_nil]
            rw [List.nodup_append]
            refine ⟨hnd, List.nodup_singleton _, ?_⟩
            intro k hk hk2
            simp only [List.mem_singleton] at hk2
            subst hk2
            exact lookupStatus_eq_none.mp hl hk
          have hrec := ih (notes ++ [(id, "completed")]) hnd2 hids.2
          obtain ⟨extra2, he2, hp2⟩ :=
            pendingFold_notes_spec files us (notes ++ [(id, "completed")])
          have hextra2_not : id ∉ extra2.map Prod.fst := by
            intro hmem
            obtain ⟨pr, hpr, hpr1⟩ := List.mem_map.mp hmem
            exact hids.1 (hpr1 ▸ (hp2 pr hpr).2)
          simp only [pendingFold]
          rw [hl]
          dsimp only
          rw [if_pos hf]
          dsimp only
          rw [countCompletedIn_cons_split _ _ _ hids.1]
          rw [he2, countIdCompleted_append, countIdCompleted_append]
          rw [countIdCompleted_not_mem hextra2_not]
          rw [countIdCompleted_not_mem (lookupStatus_eq_none.mp hl)]
          rw [show countIdCompleted [(id, "completed")] id = 1 by
            simp [countIdCompleted]]
          rw [← he2]
          omega
        · have hrec := ih notes hnd hids.2
          simp only [pendingFold]
          rw [hl]
          dsimp only
          rw [if_neg hf]
          dsimp only
          rw [countCompletedIn_cons_split _ _ _ hids.1]
          rw [he, countIdCompleted_append]
          rw [countIdCompleted_not_mem hextra_not]
          rw [countIdCompleted_not_mem (lookupStatus_eq_none.mp hl)]
          rw [← he]
          omega

/-- One lifecycle-respecting mutation preserves the statistics
invariant. -/
theorem statsInv_applyOp {p : Progress} {op : POp}
    (hInv : StatsInv p) (hok : stepOk p op = true) :
    StatsInv (applyOp p op) := by
  obtain ⟨hnd, hc, hf, hpr⟩ := hInv
  cases op with
  | markProcessing id =>
    simp only [applyOp, mark_note_processing]
    cases hl : lookupStatus p.notes id with
    | none =>
      have hfresh := lookupStatus_eq_none.mp hl
      refine ⟨?_, ?_, ?_, ?_⟩
      · rw [List.map_append]
        simp only [List.map_cons, List.map_nil]
        rw [List.nodup_append]
        refine ⟨hnd, List.nodup_singleton _, ?_⟩
        intro k hk hk2
        simp only [List.mem_singleton] at hk2
        exact hfresh (hk2 ▸ hk)
      · rw [countStatus_append, countStatus_cons]
        simp only [countStatus, List.countP_nil]
        rw [hc]
        simp [countStatus]
      · rw [countStatus_append, countStatus_cons]
        simp only [countStatus, List.countP_nil]
        rw [hf]
        simp [countStatus]
      · rw [countStatus_append, countStatus_cons]
        simp only [countStatus, List.countP_nil]
        rw [hpr]
        simp [countStatus]
    | some st =>
      simp only [stepOk] at hok
      rw [hl] at hok
      simp only [decide_eq_true_eq] at hok
      subst hok
      dsimp only
      have hge : 1 ≤ countStatus p.notes "failed" := countStatus_pos_of_lookup hl
      refine ⟨?_, ?_, ?_, ?_⟩
      · rw [setStatus_keys]; exact hnd
      · dsimp only
        have := countStatus_setStatus hnd hl "processing" "completed"
        simp only [show ("failed" = "completed") = False by simp,
          show ("processing" = "completed") = False by simp, if_false] at this
        omega
      · dsimp only
        have := countStatus_setStatus hnd hl "processing" "failed"
        simp only [show ("failed" = "failed") = True by simp,
          show ("processing" = "failed") = False by simp, if_false, if_true] at this
        have hclamp : (if 0 < p.stats.failed then p.stats.failed - 1
            else p.stats.failed) = p.stats.failed - 1 := by
          rw [if_pos (by omega)]
        rw [hclamp]
        omega
      · dsimp only
        have := countStatus_setStatus hnd hl "processing" "processing"
        simp only [show ("failed" = "processing") = False by simp,
          show ("processing" = "processing") = True by simp,
          if_false, if_true] at this
        omega
  | markCompleted id =>
    simp only [stepOk, decide_eq_true_eq] at hok
    simp only [applyOp, mark_note_completed]
    rw [hok]
    dsimp only
    have hge : 1 ≤ countStatus p.notes "processing" :=
      countStatus_pos_of_lookup hok
    refine ⟨?_, ?_, ?_, ?_⟩
    · rw [setStatus_keys]; exact hnd
    · dsimp only
      have := countStatus_setStatus hnd hok "completed" "completed"
      simp only [show ("processing" = "completed") = False by simp,
        show ("completed" = "completed") = True by simp, if_false, if_true] at this
      omega
    · dsimp only
      have := countStatus_setStatus hnd hok "completed" "failed"
      simp only [show ("processing" = "failed") = False by simp,
        show ("completed" = "failed") = False by simp, if_false] at this
      omega
    · dsimp only
      have := countStatus_setStatus hnd hok "completed" "processing"
      simp only [show ("processing" = "processing") = True by simp,
        show ("completed" = "processing") = False by simp,
        if_false, if_true] at this
      have hclamp : (if 0 < p.stats.processing then p.stats.processing - 1
          else p.stats.processing) = p.stats.processing - 1 := by
        rw [if_pos (by omega)]
      rw [hclamp]
      omega
  | markFailed id =>
    simp only [stepOk, decide_eq_true_eq] at hok
    simp only [applyOp, mark_note_failed]
    rw [hok]
    dsimp only
    have hge : 1 ≤ countStatus p.notes "processing" :=
      countStatus_pos_of_lookup hok
    refine ⟨?_, ?_, ?_, ?_⟩
    · rw [setStatus_keys]; exact hnd
    · dsimp only
      have := countStatus_setStatus hnd hok "failed" "completed"
      simp only [show ("processing" = "completed") = False by simp,
        show ("failed" = "completed") = False by simp, if_false] at this
      omega
    · dsimp only
      have := countStatus_setStatus hnd hok "failed" "failed"
      simp only [show ("processing" = "failed") = False by simp,
        show ("failed" = "failed") = True by simp, if_false, if_true] at this
      omega
    · dsimp only
      have := countStatus_setStatus hnd hok "failed" "processing"
      simp only [show ("processing" = "processing") = True by simp,
        show ("failed" = "processing") = False by simp, if_false, if_true] at this
      have hclamp : (if 0 < p.stats.processing then p.stats.processing - 1
          else p.stats.processing) = p.stats.processing - 1 := by
        rw [if_pos (by omega)]
      rw [hclamp]
      omega
  | backfill id =>
    simp only [stepOk, decide_eq_true_eq] at hok
    simp only [applyOp, backfillNote]
    rw [hok]
    dsimp only
    have hfresh := lookupStatus_eq_none.mp hok
    refine ⟨?_, ?_, ?_, ?_⟩
    · rw [List.map_append]
      simp only [List.map_cons, List.map_nil]
      rw [List.nodup_append]
      refine ⟨hnd, List.nodup_singleton _, ?_⟩
      intro k hk hk2
      simp only [List.mem_singleton] at hk2
      exact hfresh (hk2 ▸ hk)
    · rw [countStatus_append, countStatus_cons]
      simp only [countStatus, List.countP_nil]
      rw [hc]
      simp [countStatus]
    · rw [countStatus_append, countStatus_cons]
      simp only [countStatus, List.countP_nil]
      rw [hf]
      simp [countStatus]
    · rw [countStatus_append, countStatus_cons]
      simp only [countStatus, List.countP_nil]
      rw [hpr]
      simp [countStatus]
  | getPending urls files =>
    simp only [stepOk, decide_eq_true_eq] at hok
    obtain ⟨hids, hcover⟩ := hok
    obtain ⟨extra, he, hp⟩ := pendingFold_notes_spec files urls p.notes
    simp only [applyOp, get_pending_notes]
    refine ⟨pendingFold_keys_nodup files urls p.notes hnd hids, ?_, ?_, ?_⟩
    · have h1 := pendingFold_completed_count files urls p.notes hnd hids
      have hcover2 : ∀ pr ∈ (pendingFold files p.notes urls).1,
          pr.1 ∈ idsOf urls := by
        rw [he]
        intro pr hpr
        rcases List.mem_append.mp hpr with h2 | h2
        · exact hcover pr.1 (List.mem_map.mpr ⟨pr, h2, rfl⟩)
        · exact (hp pr h2).2
      rw [h1, countCompletedIn_of_cover hcover2]
    · dsimp only
      rw [he, countStatus_append,
        countStatus_all_completed (fun pr hpr => (hp pr hpr).1) (by decide)]
      omega
    · dsimp only
      rw [he, countStatus_append,
        countStatus_all_completed (fun pr hpr => (hp pr hpr).1) (by decide)]
      omega

/-! ## Claim C7: statistics consistency -/

/-- A fresh manager after recomputing the pending list for one new
URL. -/
def cex7a : Progress := applyOp freshProgress (.getPending [some 1] [])

/-- The same manager after marking the same note `processing` twice (as
happens when a run resumes over a crash-leftover `processing` entry). -/
def cex7b : Progress :=
  applyOp (applyOp cex7a (.markProcessing 1)) (.markProcessing 1)

/-- C7, counterexample.  After recomputing the pending list the
`pending` counter is 1 although no entry of `notes_progress` carries
status `pending` (no entry ever does); and after a repeated
`mark_note_processing` the `processing` counter is 2 although exactly
one entry has status `processing`. -/
theorem C7_counterexample :
    (cex7a.stats.pending = 1 ∧ countStatus cex7a.notes "pending" = 0) ∧
    (cex7b.stats.processing = 2 ∧ countStatus cex7b.notes "processing" = 1) := by
  decide

/-- C7 as amended: along any mutation sequence that follows the note
lifecycle (`processing` only for untracked or failed notes,
`completed`/`failed` only for notes in `processing`, backfills only for
untracked ids, pending recomputations fed pairwise distinct ids covering
the tracked notes), the `completed`, `failed` and `processing` counters
each equal the number of `notes_progress` entries carrying that status
after every mutation; the `pending` counter instead equals the length of
the pending list returned by the last recomputation — not the number of
entries with a `pending` status, which never exists. -/
theorem C7_statistics_amended :
    (∀ ops : List POp, disciplined freshProgress ops = true →
      StatsInv (runOps freshProgress ops)) ∧
    (∀ (p : Progress) (urls : List (Option Nat)) (files : List Nat),
      (applyOp p (.getPending urls files)).stats.pending =
        (pendingFold files p.notes urls).2.2.length) := by
  constructor
  · have hgen : ∀ (ops : List POp) (p : Progress), StatsInv p →
        disciplined p ops = true → StatsInv (runOps p ops) := by
      intro ops
      induction ops with
      | nil => intro p h _; exact h
      | cons op rest ih =>
        intro p h hd
        simp only [disciplined, Bool.and_eq_true] at hd
        exact ih (applyOp p op) (statsInv_applyOp h hd.1) hd.2
    intro ops hd
    exact hgen ops freshProgress ⟨List.nodup_nil, rfl, rfl, rfl⟩ hd
  · intro p urls files
    rfl

/-- Witness for C7 as amended on a concrete disciplined run: a pending
recomputation over two URLs (one backfilled from an existing file),
then marking the other note `processing` and `completed`. -/
theorem C7_statistics_amended_witness :
    disciplined freshProgress
      [.getPending [some 1, some 2] [2], .markProcessing 1, .markCompleted 1]
      = true ∧
    StatsInv (runOps freshProgress
      [.getPending [some 1, some 2] [2], .markProcessing 1,
       .markCompleted 1]) :=
  ⟨by decide, C7_statistics_amended.1 _ (by decide)⟩

/-! # Part 7: the credential-rotating retry wrapper
(`JsonToFullData.get_with_cookie_pool_retry`, `src/json_to_full_data.py`)

First some further facts about the pool primitives, needed to reason
about repeated acquisitions inside the wrapper's loop. -/

@[simp] theorem check_daily_reset_cookie_id (a : CookieAccount) (now : Nat) :
    (check_daily_reset a now).cookie_id = a.cookie_id := by
  unfold check_daily_reset; split <;> rfl

@[simp] theorem check_daily_reset_min_interval (a : CookieAccount) (now : Nat) :
    (check_daily_reset a now).min_interval = a.min_interval := by
  unfold check_daily_reset; split <;> rfl

@[simp] theorem check_daily_reset_cooldown (a : CookieAccount) (now : Nat) :
    (check_daily_reset a now).cooldown_until = a.cooldown_until := by
  unfold check_daily_reset; split <;> rfl

@[simp] theorem check_daily_reset_last_use (a : CookieAccount) (now : Nat) :
    (check_daily_reset a now).last_use_time = a.last_use_time := by
  unfold check_daily_reset; split <;> rfl

@[simp] theorem use_cookie_id (a : CookieAccount) (now : Nat) :
    (a.use now).cookie_id = a.cookie_id := rfl

@[simp] theorem use_min_interval (a : CookieAccount) (now : Nat) :
    (a.use now).min_interval = a.min_interval := rfl

@[simp] theorem mark_error_cookie_id (a : CookieAccount) (now : Nat) :
    (mark_error a now).cookie_id = a.cookie_id := by
  simp only [mark_error]; split_ifs <;> rfl

@[simp] theorem mark_error_min_interval (a : CookieAccount) (now : Nat) :
    (mark_error a now).min_interval = a.min_interval := by
  simp only [mark_error]; split_ifs <;> rfl

@[simp] theorem mark_success_cookie_id (a : CookieAccount) (n : Nat) :
    (mark_success a n).cookie_id = a.cookie_id := rfl

@[simp] theorem mark_success_min_interval (a : CookieAccount) (n : Nat) :
    (mark_success a n).min_interval = a.min_interval := rfl

@[simp] theorem can_use_snd_cookie_id (a : CookieAccount) (now : Nat) :
    ((can_use a now).2).cookie_id = a.cookie_id := by
  simp only [can_use]; split_ifs <;> simp

@[simp] theorem can_use_snd_min_interval (a : CookieAccount) (now : Nat) :
    ((can_use a now).2).min_interval = a.min_interval := by
  simp only [can_use]; split_ifs <;> simp

theorem check_daily_reset_idem (a : CookieAccount) (now : Nat) :
    check_daily_reset (check_daily_reset a now) now = check_daily_reset a now := by
  unfold check_daily_reset
  split <;> simp

/-- The verdict of `can_use` as one boolean formula. -/
def canUseBool (a : CookieAccount) (now : Nat) : Bool :=
  a.is_active && !cooldownBlocked a now && !intervalBlocked a now &&
    decide ((check_daily_reset a now).daily_use_count <
      (check_daily_reset a now).daily_limit) &&
    decide (a.error_count < 5)

theorem can_use_fst_eq (a : CookieAccount) (now : Nat) :
    (can_use a now).1 = canUseBool a now := by
  simp only [can_use, canUseBool]
  split_ifs with h1 h2 h3 h4 h5 <;>
    simp_all [check_daily_reset_error_count, check_daily_reset_daily_limit]

/-- The two checks sensitive to the daily reset see the same values on
the reset account, so the verdict is stable under the in-place mutation
of `can_use`. -/
theorem can_use_idem (a : CookieAccount) (now : Nat) :
    (can_use ((can_use a now).2) now).1 = (can_use a now).1 := by
  have hsnd : (can_use a now).2 = a ∨
      (can_use a now).2 = check_daily_reset a now := by
    simp only [can_use]
    split_ifs <;> simp
  rcases hsnd with h | h
  · rw [h]
  · rw [h, can_use_fst_eq, can_use_fst_eq]
    simp only [canUseBool, check_daily_reset_is_active,
      check_daily_reset_error_count, check_daily_reset_idem]
    have hcool : cooldownBlocked (check_daily_reset a now) now =
        cooldownBlocked a now := by
      simp [cooldownBlocked]
    have hint : intervalBlocked (check_daily_reset a now) now =
        intervalBlocked a now := by
      simp [intervalBlocked]
    rw [hcool, hint]

/-- A just-used account with a positive minimum interval cannot be
acquired again at the same instant. -/
theorem can_use_use_false (a : CookieAccount) (now : Nat)
    (h : 1 ≤ a.min_interval) : (can_use (a.use now) now).1 = false := by
  rw [can_use_fst_eq]
  simp only [canUseBool, CookieAccount.use, intervalBlocked]
  simp only [Nat.sub_self]
  have : (0 < a.min_interval) := h
  simp [this]

/-- Number of accounts currently passing the `can_use` filter. -/
def availCount (l : List CookieAccount) (now : Nat) : Nat :=
  l.countP (fun a => (can_use a now).1)

theorem map_replace_noop (b : CookieAccount) (cid : Nat) :
    ∀ l : List CookieAccount, cid ∉ l.map CookieAccount.cookie_id →
      l.map (fun x => if x.cookie_id = cid then b else x) = l := by
  intro l
  induction l with
  | nil => intro _; rfl
  | cons x xs ih =>
    intro h
    simp only [List.map_cons, List.mem_cons, not_or] at h
    simp only [List.map_cons]
    rw [if_neg (fun hc => h.1 hc.symm), ih h.2]

theorem countP_map_replace (pred : CookieAccount → Bool) (b : CookieAccount) :
    ∀ (l : List CookieAccount) (m : CookieAccount),
      (l.map CookieAccount.cookie_id).Nodup → m ∈ l →
      (l.map (fun x => if x.cookie_id = m.cookie_id then b else x)).countP pred
          + (if pred m then 1 else 0)
        = l.countP pred + (if pred b then 1 else 0) := by
  intro l
  induction l with
  | nil => intro m _ hm; simp at hm
  | cons x xs ih =>
    intro m hnd hm
    simp only [List.map_cons, List.nodup_cons] at hnd
    rcases List.mem_cons.mp hm with rfl | hm2
    · simp only [List.map_cons, if_pos rfl]
      rw [map_replace_noop b m.cookie_id xs hnd.1]
      rw [List.countP_cons, List.countP_cons]
      by_cases hb : pred b <;> by_cases hx : pred m <;> simp [hb, hx]
    · have hxm : x.cookie_id ≠ m.cookie_id := by
        intro hc
        exact hnd.1 (hc ▸ List.mem_map.mpr ⟨m, hm2, rfl⟩)
      simp only [List.map_cons, if_neg hxm]
      rw [List.countP_cons, List.countP_cons]
      have := ih m hnd.2 hm2
      omega

theorem availCount_map_can_use (l : List CookieAccount) (now : Nat) :
    availCount (l.map (fun a => (can_use a now).2)) now = availCount l now := by
  simp only [availCount, List.countP_map]
  induction l with
  | nil => rfl
  | cons x xs ih =>
    rw [List.countP_cons, List.countP_cons, ih]
    simp only [Function.comp, can_use_idem]

theorem map_cookie_id_map_can_use (l : List CookieAccount) (now : Nat) :
    (l.map (fun a => (can_use a now).2)).map CookieAccount.cookie_id =
      l.map CookieAccount.cookie_id := by
  rw [List.map_map]
  induction l with
  | nil => rfl
  | cons x xs ih =>
    simp only [List.map_cons] at ih ⊢
    rw [ih]
    simp [Function.comp]

theorem map_cookie_id_replace (l : List CookieAccount) (cid : Nat)
    (b : CookieAccount) (hb : b.cookie_id = cid) :
    (l.map (fun x => if x.cookie_id = cid then b else x)).map
        CookieAccount.cookie_id = l.map CookieAccount.cookie_id := by
  induction l with
  | nil => rfl
  | cons x xs ih =>
    simp only [List.map_cons] at ih ⊢
    rw [ih]
    by_cases hx : x.cookie_id = cid
    · rw [if_pos hx, hb, hx]
    · rw [if_neg hx]

/-- Full inversion of a successful acquisition: the selected account is
a member of the available list, the result is its `use`-stamp, and the
new pool is the reset-mapped account list with the selected account
replaced in place. -/
theorem get_available_account_inv {p : CookiePool} {now pick : Nat}
    {b : CookieAccount} {p2 : CookiePool}
    (h : get_available_account p now pick = (some b, p2)) :
    ∃ m ∈ availList p now, b = m.use now ∧
      p2.accounts = (p.accounts.map (fun a => (can_use a now).2)).map
        (fun x => if x.cookie_id = m.cookie_id then m.use now else x) := by
  simp only [get_available_account] at h
  cases hav : availList p now with
  | nil => rw [hav] at h; simp at h
  | cons a0 rest =>
    rw [hav] at h
    cases hstr : p.strategy with
    | random =>
      rw [hstr] at h
      dsimp only at h
      rw [Prod.mk.injEq] at h
      obtain ⟨h1, h2⟩ := h
      injection h1 with h1
      refine ⟨(a0 :: rest).getD (pick % (a0 :: rest).length) dummyAccount,
        ?_, h1.symm, ?_⟩
      · exact getD_mem_of_lt (Nat.mod_lt _ (by simp))
      · rw [← h2]
    | least_used =>
      rw [hstr] at h
      dsimp only at h
      rw [Prod.mk.injEq] at h
      obtain ⟨h1, h2⟩ := h
      injection h1 with h1
      obtain ⟨l1, l2, hdec, -, -⟩ := selectLeastUsed_spec rest a0 _ rfl
      have hmem : (match selectLeastUsed (a0 :: rest) with
          | some m => m
          | none => dummyAccount) ∈ a0 :: rest := by
        rw [show (match selectLeastUsed (a0 :: rest) with
            | some m => m
            | none => dummyAccount) =
          rest.foldl
            (fun m y => if y.daily_use_count < m.daily_use_count then y else m)
            a0 from rfl]
        rw [hdec]
        simp
      refine ⟨_, ?_, h1.symm, ?_⟩
      · exact hmem
      · rw [← h2]
    | round_robin =>
      rw [hstr] at h
      dsimp only at h
      rw [Prod.mk.injEq] at h
      obtain ⟨h1, h2⟩ := h
      injection h1 with h1
      have hidx : ((p.last_used_index + 1) %
          ((a0 :: rest).length : Int)).toNat < (a0 :: rest).length := by
        have hlen : (0 : Int) < ((a0 :: rest).length : Int) := by simp
        have hnn : 0 ≤ (p.last_used_index + 1) % ((a0 :: rest).length : Int) :=
          Int.emod_nonneg _ (by omega)
        have hlt : (p.last_used_index + 1) % ((a0 :: rest).length : Int) <
            ((a0 :: rest).length : Int) := Int.emod_lt_of_pos _ hlen
        omega
      refine ⟨_, ?_, h1.symm, ?_⟩
      · exact getD_mem_of_lt hidx
      · rw [← h2]

/-- A successful acquisition removes exactly one account (the selected
one, unavailable for `min_interval` seconds after its `use` stamp) from
the available set at the same instant. -/
theorem get_available_account_counts {p : CookiePool} {now pick : Nat}
    {b : CookieAccount} {p2 : CookiePool}
    (hids : (p.accounts.map CookieAccount.cookie_id).Nodup)
    (hmin : ∀ a ∈ p.accounts, 1 ≤ a.min_interval)
    (h : get_available_account p now pick = (some b, p2)) :
    availCount p2.accounts now + 1 = availCount p.accounts now := by
  obtain ⟨m, hmem, -, hacc⟩ := get_available_account_inv h
  obtain ⟨a0, ha0, hverdict, hm⟩ := mem_availList.mp hmem
  have hm_mem : m ∈ p.accounts.map (fun a => (can_use a now).2) :=
    List.mem_map.mpr ⟨a0, ha0, hm.symm⟩
  have hnd2 : ((p.accounts.map (fun a => (can_use a now).2)).map
      CookieAccount.cookie_id).Nodup := by
    rw [map_cookie_id_map_can_use]
    exact hids
  have hcount := countP_map_replace (fun a => (can_use a now).1) (m.use now)
    (p.accounts.map (fun a => (can_use a now).2)) m hnd2 hm_mem
  have hpm : (can_use m now).1 = true := by
    rw [hm, can_use_idem]
    exact hverdict
  have hpb : (can_use (m.use now) now).1 = false := by
    apply can_use_use_false
    have : m.min_interval = a0.min_interval := by
      rw [hm]
      simp
    rw [this]
    exact hmin a0 ha0
  simp only [hpm, hpb, reduceIte] at hcount
  rw [show (if (false = true) then (1 : Nat) else 0) = 0 from rfl] at hcount
  rw [hacc]
  have hmap := availCount_map_can_use p.accounts now
  simp only [availCount] at hmap ⊢
  rw [hmap] at hcount
  omega

/-- Either acquisition returns `none` and the pool is just the
reset-mapped account list, or it is that list with the selected member
of the available list replaced by its `use`-stamp. -/
theorem get_available_account_pool_shape (p : CookiePool) (now pick : Nat) :
    ((get_available_account p now pick).2).accounts =
      p.accounts.map (fun a => (can_use a now).2) ∨
    ∃ m ∈ availList p now,
      ((get_available_account p now pick).2).accounts =
        (p.accounts.map (fun a => (can_use a now).2)).map
          (fun x => if x.cookie_id = m.cookie_id then m.use now else x) := by
  cases hres : get_available_account p now pick with
  | mk fst snd =>
    cases fst with
    | none =>
      left
      simp only [get_available_account] at hres
      cases hav : availList p now with
      | nil =>
        rw [hav] at hres
        dsimp only at hres
        rw [Prod.mk.injEq] at hres
        rw [← hres.2]
      | cons a0 rest =>
        rw [hav] at hres
        cases p.strategy <;> simp at hres
    | some b =>
      right
      obtain ⟨m, hmem, -, hacc⟩ := get_available_account_inv hres
      exact ⟨m, hmem, hacc⟩

theorem get_available_account_ids (p : CookiePool) (now pick : Nat) :
    (((get_available_account p now pick).2).accounts).map
        CookieAccount.cookie_id = p.accounts.map CookieAccount.cookie_id := by
  rcases get_available_account_pool_shape p now pick with h | ⟨m, -, h⟩
  · rw [h, map_cookie_id_map_can_use]
  · rw [h, map_cookie_id_replace _ _ _ (use_cookie_id m now),
      map_cookie_id_map_can_use]

theorem get_available_account_length (p : CookiePool) (now pick : Nat) :
    (((get_available_account p now pick).2).accounts).length =
      p.accounts.length := by
  have := congrArg List.length (get_available_account_ids p now pick)
  simpa using this

theorem get_available_account_min (p : CookiePool) (now pick : Nat)
    (hmin : ∀ a ∈ p.accounts, 1 ≤ a.min_interval) :
    ∀ x ∈ ((get_available_account p now pick).2).accounts,
      1 ≤ x.min_interval := by
  rcases get_available_account_pool_shape p now pick with h | ⟨m, hmem, h⟩
  · rw [h]
    intro x hx
    obtain ⟨a, ha, rfl⟩ := List.mem_map.mp hx
    rw [can_use_snd_min_interval]
    exact hmin a ha
  · rw [h]
    intro x hx
    obtain ⟨y, hy, rfl⟩ := List.mem_map.mp hx
    obtain ⟨a, ha, rfl⟩ := List.mem_map.mp hy
    by_cases hc : ((can_use a now).2).cookie_id = m.cookie_id
    · rw [if_pos hc, use_min_interval]
      obtain ⟨a2, ha2, -, hm2⟩ := mem_availList.mp hmem
      rw [hm2, can_use_snd_min_interval]
      exact hmin a2 ha2
    · rw [if_neg hc, can_use_snd_min_interval]
      exact hmin a ha

/-- `CookiePool.mark_account_error` on the pool: the map a Python
in-place mutation of the account keyed by `cid` amounts to. -/
def markPoolError (p : CookiePool) (cid : Nat) (now : Nat) : CookiePool :=
  { p with accounts := p.accounts.map (fun a =>
      if a.cookie_id = cid then mark_error a now else a) }

theorem markPoolError_ids (p : CookiePool) (cid now : Nat) :
    ((markPoolError p cid now).accounts).map CookieAccount.cookie_id =
      p.accounts.map CookieAccount.cookie_id := by
  simp only [markPoolError]
  induction p.accounts with
  | nil => rfl
  | cons x xs ih =>
    simp only [List.map_cons] at ih ⊢
    rw [ih]
    by_cases hx : x.cookie_id = cid
    · rw [if_pos hx]
      simp [hx]
    · rw [if_neg hx]

theorem markPoolError_length (p : CookiePool) (cid now : Nat) :
    ((markPoolError p cid now).accounts).length = p.accounts.length := by
  simp [markPoolError]

theorem markPoolError_min (p : CookiePool) (cid now : Nat)
    (hmin : ∀ a ∈ p.accounts, 1 ≤ a.min_interval) :
    ∀ x ∈ (markPoolError p cid now).accounts, 1 ≤ x.min_interval := by
  simp only [markPoolError]
  intro x hx
  obtain ⟨a, ha, rfl⟩ := List.mem_map.mp hx
  by_cases hc : a.cookie_id = cid
  · rw [if_pos hc, mark_error_min_interval]
    exact hmin a ha
  · rw [if_neg hc]
    exact hmin a ha

/-- The loop state of `get_with_cookie_pool_retry`: the pool, the
`tried_cookie_ids` set (a list in insertion order), the wait-round
counter, the clock and a tick counting acquisition calls (feeding the
`random` strategy's oracle). -/
structure RetryState where
  pool : CookiePool
  tried : List Nat
  wait_rounds : Nat
  clock : Nat
  tick : Nat
deriving Repr, DecidableEq

/-- The wrapper's possible returns. -/
inductive RetryResult where
  | success (cookie_id : Nat)
  | failureEmpty
  | failureAll
deriving Repr, DecidableEq

/-- The observable outcome of a run: the returned value (`none` when
the fuel ran out mid-loop), the final `tried_cookie_ids`, the final
wait-round counter, and the ids actually passed to `api_func` in
order. -/
structure RetryRun where
  res : Option RetryResult
  tried : List Nat
  wait_rounds : Nat
  attempts : List Nat
deriving Repr, DecidableEq

/-- The `while len(tried_cookie_ids) < total_accounts` loop of
`get_with_cookie_pool_retry`.  Each iteration acquires an account; with
none available, when not all accounts are tried and fewer than 3 wait
rounds have been spent, it sleeps 2 seconds and retries, otherwise it
gives up; an already-tried account is skipped (`continue`); a fresh
account is recorded in `tried_cookie_ids` and the API is called with it:
on success the wrapper returns, on failure the account's error is
recorded in the pool and the loop continues.  `apiOk` gives the
per-credential API outcome. -/
def retryLoop (apiOk : Nat → Bool) (picks : Nat → Nat) (total : Nat) :
    Nat → RetryState → RetryRun
  | 0, s => ⟨none, s.tried, s.wait_rounds, []⟩
  | fuel + 1, s =>
    if total ≤ s.tried.length then ⟨some .failureAll, s.tried, s.wait_rounds, []⟩
    else
      match get_available_account s.pool s.clock (picks s.tick) with
      | (none, pool2) =>
        if total ≤ s.tried.length then
          ⟨some .failureAll, s.tried, s.wait_rounds, []⟩
        else if s.wait_rounds < 3 then
          retryLoop apiOk picks total fuel
            { s with
              pool := pool2
              tick := s.tick + 1
              wait_rounds := s.wait_rounds + 1
              clock := s.clock + 2 }
        else ⟨some .failureAll, s.tried, s.wait_rounds, []⟩
      | (some acct, pool2) =>
        if acct.cookie_id ∈ s.tried then
          retryLoop apiOk picks total fuel
            { s with pool := pool2, tick := s.tick + 1 }
        else if apiOk acct.cookie_id then
          ⟨some (.success acct.cookie_id), s.tried ++ [acct.cookie_id],
            s.wait_rounds, [acct.cookie_id]⟩
        else
          let r := retryLoop apiOk picks total fuel
            { s with
              pool := markPoolError pool2 acct.cookie_id s.clock
              tried := s.tried ++ [acct.cookie_id]
              tick := s.tick + 1 }
          ⟨r.res, r.tried, r.wait_rounds, acct.cookie_id :: r.attempts⟩

/-- `JsonToFullData.get_with_cookie_pool_retry` (with a pool): an empty
pool fails at once; otherwise the loop runs with `total_accounts` fixed
to the pool size and an empty tried set. -/
def get_with_cookie_pool_retry (apiOk : Nat → Bool) (picks : Nat → Nat)
    (fuel : Nat) (pool : CookiePool) (clock : Nat) : RetryRun :=
  if pool.accounts.length = 0 then ⟨some .failureEmpty, [], 0, []⟩
  else retryLoop apiOk picks pool.accounts.length fuel ⟨pool, [], 0, clock, 0⟩

/-- The final tried set is the initial one extended by exactly the
attempted ids, in order. -/
theorem retryLoop_tried_attempts (apiOk : Nat → Bool) (picks : Nat → Nat)
    (total : Nat) : ∀ (fuel : Nat) (s : RetryState),
    (retryLoop apiOk picks total fuel s).tried =
      s.tried ++ (retryLoop apiOk picks total fuel s).attempts := by
  intro fuel
  induction fuel with
  | zero => intro s; simp [retryLoop]
  | succ n ih =>
    intro s
    rw [retryLoop]
    by_cases h1 : total ≤ s.tried.length
    · rw [if_pos h1]; simp
    · rw [if_neg h1]
      cases hga : get_available_account s.pool s.clock (picks s.tick) with
      | mk opt pool2 =>
        cases opt with
        | none =>
          dsimp only
          rw [if_neg h1]
          by_cases h2 : s.wait_rounds < 3
          · rw [if_pos h2]
            exact ih _
          · rw [if_neg h2]; simp
        | some acct =>
          dsimp only
          by_cases h3 : acct.cookie_id ∈ s.tried
          · rw [if_pos h3]
            exact ih _
          · rw [if_neg h3]
            by_cases h4 : apiOk acct.cookie_id
            · rw [if_pos h4]
            · rw [if_neg h4]
              dsimp only
              rw [ih]
              simp

/-- Distinctness of the tried ids is preserved: every attempted id was
new when recorded. -/
theorem retryLoop_nodup (apiOk : Nat → Bool) (picks : Nat → Nat)
    (total : Nat) : ∀ (fuel : Nat) (s : RetryState), s.tried.Nodup →
    (retryLoop apiOk picks total fuel s).tried.Nodup := by
  intro fuel
  induction fuel with
  | zero => intro s h; simpa [retryLoop] using h
  | succ n ih =>
    intro s h
    rw [retryLoop]
    by_cases h1 : total ≤ s.tried.length
    · rw [if_pos h1]; exact h
    · rw [if_neg h1]
      cases hga : get_available_account s.pool s.clock (picks s.tick) with
      | mk opt pool2 =>
        cases opt with
        | none =>
          dsimp only
          rw [if_neg h1]
          by_cases h2 : s.wait_rounds < 3
          · rw [if_pos h2]
            exact ih _ h
          · rw [if_neg h2]; exact h
        | some acct =>
          dsimp only
          by_cases h3 : acct.cookie_id ∈ s.tried
          · rw [if_pos h3]
            exact ih _ h
          · rw [if_neg h3]
            have happ : (s.tried ++ [acct.cookie_id]).Nodup := by
              rw [List.nodup_append]
              exact ⟨h, List.nodup_singleton _,
                fun k hk hk2 => h3 ((List.mem_singleton.mp hk2) ▸ hk)⟩
            by_cases h4 : apiOk acct.cookie_id
            · rw [if_pos h4]
              exact happ
            · rw [if_neg h4]
              dsimp only
              exact ih _ happ

/-- The tried set never exceeds the pool size: an id is only recorded
while strictly fewer than `total` ids are tried. -/
theorem retryLoop_tried_le (apiOk : Nat → Bool) (picks : Nat → Nat)
    (total : Nat) : ∀ (fuel : Nat) (s : RetryState),
    s.tried.length ≤ total →
    (retryLoop apiOk picks total fuel s).tried.length ≤ total := by
  intro fuel
  induction fuel with
  | zero => intro s h; simpa [retryLoop] using h
  | succ n ih =>
    intro s h
    rw [retryLoop]
    by_cases h1 : total ≤ s.tried.length
    · rw [if_pos h1]; exact h
    · rw [if_neg h1]
      cases hga : get_available_account s.pool s.clock (picks s.tick) with
      | mk opt pool2 =>
        cases opt with
        | none =>
          dsimp only
          rw [if_neg h1]
          by_cases h2 : s.wait_rounds < 3
          · rw [if_pos h2]
            exact ih _ h
          · rw [if_neg h2]; exact h
        | some acct =>
          dsimp only
          by_cases h3 : acct.cookie_id ∈ s.tried
          · rw [if_pos h3]
            exact ih _ h
          · rw [if_neg h3]
            have hlen : (s.tried ++ [acct.cookie_id]).length ≤ total := by
              simp only [List.length_append, List.length_singleton]
              omega
            by_cases h4 : apiOk acct.cookie_id
            · rw [if_pos h4]
              exact hlen
            · rw [if_neg h4]
              dsimp only
              exact ih _ hlen

/-- The wait-round counter never exceeds 3: it is only bumped while
strictly below 3. -/
theorem retryLoop_wait_le (apiOk : Nat → Bool) (picks : Nat → Nat)
    (total : Nat) : ∀ (fuel : Nat) (s : RetryState), s.wait_rounds ≤ 3 →
    (retryLoop apiOk picks total fuel s).wait_rounds ≤ 3 := by
  intro fuel
  induction fuel with
  | zero => intro s h; simpa [retryLoop] using h
  | succ n ih =>
    intro s h
    rw [retryLoop]
    by_cases h1 : total ≤ s.tried.length
    · rw [if_pos h1]; exact h
    · rw [if_neg h1]
      cases hga : get_available_account s.pool s.clock (picks s.tick) with
      | mk opt pool2 =>
        cases opt with
        | none =>
          dsimp only
          rw [if_neg h1]
          by_cases h2 : s.wait_rounds < 3
          · rw [if_pos h2]
            exact ih _ (by dsimp only; omega)
          · rw [if_neg h2]; exact h
        | some acct =>
          dsimp only
          by_cases h3 : acct.cookie_id ∈ s.tried
          · rw [if_pos h3]
            exact ih _ h
          · rw [if_neg h3]
            by_cases h4 : apiOk acct.cookie_id
            · rw [if_pos h4]
              exact h
            · rw [if_neg h4]
              dsimp only
              exact ih _ h

/-- A success return names a credential whose API call succeeded, and
that credential was attempted. -/
theorem retryLoop_success_inv (apiOk : Nat → Bool) (picks : Nat → Nat)
    (total : Nat) : ∀ (fuel : Nat) (s : RetryState) (cid : Nat),
    (retryLoop apiOk picks total fuel s).res = some (.success cid) →
    apiOk cid = true ∧ cid ∈ (retryLoop apiOk picks total fuel s).attempts := by
  intro fuel
  induction fuel with
  | zero => intro s cid h; simp [retryLoop] at h
  | succ n ih =>
    intro s cid h
    rw [retryLoop] at h ⊢
    by_cases h1 : total ≤ s.tried.length
    · rw [if_pos h1] at h; simp at h
    · rw [if_neg h1] at h ⊢
      cases hga : get_available_account s.pool s.clock (picks s.tick) with
      | mk opt pool2 =>
        rw [hga] at h
        cases opt with
        | none =>
          dsimp only at h ⊢
          rw [if_neg h1] at h ⊢
          by_cases h2 : s.wait_rounds < 3
          · rw [if_pos h2] at h ⊢
            exact ih _ cid h
          · rw [if_neg h2] at h; simp at h
        | some acct =>
          dsimp only at h ⊢
          by_cases h3 : acct.cookie_id ∈ s.tried
          · rw [if_pos h3] at h ⊢
            exact ih _ cid h
          · rw [if_neg h3] at h ⊢
            by_cases h4 : apiOk acct.cookie_id
            · rw [if_pos h4] at h ⊢
              simp only [Option.some.injEq] at h
              injection h with h
              subst h
              exact ⟨h4, by simp⟩
            · rw [if_neg h4] at h ⊢
              dsimp only at h ⊢
              obtain ⟨ha, hm⟩ := ih _ cid h
              exact ⟨ha, List.mem_cons_of_mem _ hm⟩

/-- A total-failure return means every attempted credential's API call
failed. -/
theorem retryLoop_failureAll_attempts (apiOk : Nat → Bool)
    (picks : Nat → Nat) (total : Nat) :
    ∀ (fuel : Nat) (s : RetryState),
    (retryLoop apiOk picks total fuel s).res = some .failureAll →
    ∀ cid ∈ (retryLoop apiOk picks total fuel s).attempts,
      apiOk cid = false := by
  intro fuel
  induction fuel with
  | zero => intro s h; simp [retryLoop] at h
  | succ n ih =>
    intro s h
    rw [retryLoop] at h ⊢
    by_cases h1 : total ≤ s.tried.length
    · rw [if_pos h1] at h ⊢
      simp
    · rw [if_neg h1] at h ⊢
      cases hga : get_available_account s.pool s.clock (picks s.tick) with
      | mk opt pool2 =>
        rw [hga] at h
        cases opt with
        | none =>
          dsimp only at h ⊢
          rw [if_neg h1] at h ⊢
          by_cases h2 : s.wait_rounds < 3
          · rw [if_pos h2] at h ⊢
            exact ih _ h
          · rw [if_neg h2] at h ⊢
            simp
        | some acct =>
          dsimp only at h ⊢
          by_cases h3 : acct.cookie_id ∈ s.tried
          · rw [if_pos h3] at h ⊢
            exact ih _ h
          · rw [if_neg h3] at h ⊢
            by_cases h4 : apiOk acct.cookie_id
            · rw [if_pos h4] at h
              simp at h
            · rw [if_neg h4] at h ⊢
              dsimp only at h ⊢
              intro cid hcid
              rcases List.mem_cons.mp hcid with rfl | hcid2
              · simpa using h4
              · exact ih _ h cid hcid2

/-- Pool-side loop invariant: size fixed at `total`, distinct ids,
positive minimum intervals (the source default is 3 seconds). -/
def PoolInv (total : Nat) (s : RetryState) : Prop :=
  s.pool.accounts.length = total ∧
  (s.pool.accounts.map CookieAccount.cookie_id).Nodup ∧
  (∀ a ∈ s.pool.accounts, 1 ≤ a.min_interval)

/-- Termination measure of the loop: untried credentials dominate,
then remaining wait rounds, then the number of currently available
accounts (which strictly drops on every `continue` over an
already-tried account, since its fresh `use` stamp blocks it for
`min_interval` seconds). -/
def retryMeasure (total : Nat) (s : RetryState) : Nat :=
  (total - s.tried.length) * (4 * total + 8) +
    (3 - s.wait_rounds) * (total + 1) +
    availCount s.pool.accounts s.clock

/-- With fuel above the measure, the loop returns an actual result:
it cannot run forever. -/
theorem retryLoop_no_fuel (apiOk : Nat → Bool) (picks : Nat → Nat)
    (total : Nat) : ∀ (fuel : Nat) (s : RetryState),
    PoolInv total s → retryMeasure total s < fuel →
    (retryLoop apiOk picks total fuel s).res ≠ none := by
  intro fuel
  induction fuel with
  | zero => intro s _ hm; exact absurd hm (by omega)
  | succ n ih =>
    intro s hInv hm
    obtain ⟨hlen, hids, hmin⟩ := hInv
    rw [retryLoop]
    by_cases h1 : total ≤ s.tried.length
    · rw [if_pos h1]; simp
    · rw [if_neg h1]
      cases hga : get_available_account s.pool s.clock (picks s.tick) with
      | mk opt pool2 =>
        have hids2 : pool2.accounts.map CookieAccount.cookie_id =
            s.pool.accounts.map CookieAccount.cookie_id := by
          have := get_available_account_ids s.pool s.clock (picks s.tick)
          rw [hga] at this
          exact this
        have hlen2 : pool2.accounts.length = total := by
          have := get_available_account_length s.pool s.clock (picks s.tick)
          rw [hga] at this
          rw [this]
          exact hlen
        have hmin2 : ∀ a ∈ pool2.accounts, 1 ≤ a.min_interval := by
          have := get_available_account_min s.pool s.clock (picks s.tick) hmin
          rw [hga] at this
          exact this
        cases opt with
        | none =>
          dsimp only
          rw [if_neg h1]
          by_cases h2 : s.wait_rounds < 3
          · rw [if_pos h2]
            apply ih
            · exact ⟨hlen2, by rw [hids2]; exact hids, hmin2⟩
            · have hav2 : availCount pool2.accounts (s.clock + 2) ≤ total := by
                have h : pool2.accounts.countP
                    (fun a => (can_use a (s.clock + 2)).1) ≤
                    pool2.accounts.length := List.countP_le_length _
                simpa [availCount, hlen2] using h
              have hkey : retryMeasure total
                  { s with
                    pool := pool2
                    tick := s.tick + 1
                    wait_rounds := s.wait_rounds + 1
                    clock := s.clock + 2 }
                  < retryMeasure total s := by
                simp only [retryMeasure]
                have hw : s.wait_rounds = 0 ∨ s.wait_rounds = 1 ∨
                    s.wait_rounds = 2 := by omega
                generalize (total - s.tried.length) * (4 * total + 8) = C
                rcases hw with hw | hw | hw <;> rw [hw] <;> omega
              omega
          · rw [if_neg h2]; simp
        | some acct =>
          dsimp only
          have hcounts : availCount pool2.accounts s.clock + 1 =
              availCount s.pool.accounts s.clock := by
            exact get_available_account_counts hids hmin hga
          by_cases h3 : acct.cookie_id ∈ s.tried
          · rw [if_pos h3]
            apply ih
            · exact ⟨hlen2, by rw [hids2]; exact hids, hmin2⟩
            · have hkey : retryMeasure total
                  { s with pool := pool2, tick := s.tick + 1 } + 1 =
                  retryMeasure total s := by
                simp only [retryMeasure]
                omega
              omega
          · rw [if_neg h3]
            by_cases h4 : apiOk acct.cookie_id
            · rw [if_pos h4]; simp
            · rw [if_neg h4]
              dsimp only
              have hres := ih
                { s with
                  pool := markPoolError pool2 acct.cookie_id s.clock
                  tried := s.tried ++ [acct.cookie_id]
                  tick := s.tick + 1 }
                ⟨by rw [markPoolError_length]; exact hlen2,
                 by rw [markPoolError_ids, hids2]; exact hids,
                 markPoolError_min pool2 acct.cookie_id s.clock hmin2⟩
                ?hmeas
              · exact hres
              case hmeas =>
                have hav3 : availCount
                    (markPoolError pool2 acct.cookie_id s.clock).accounts
                    s.clock ≤ total := by
                  have h : (markPoolError pool2 acct.cookie_id s.clock).accounts.countP
                      (fun a => (can_use a s.clock).1) ≤
                      (markPoolError pool2 acct.cookie_id s.clock).accounts.length :=
                    List.countP_le_length _
                  have hlen3 := markPoolError_length pool2 acct.cookie_id s.clock
                  simp only [availCount]
                  omega
                simp only [retryMeasure]
                simp only [List.length_append, List.length_singleton]
                have hsub : total - s.tried.length =
                    (total - (s.tried.length + 1)) + 1 := by omega
                simp only [retryMeasure] at hm
                rw [hsub, Nat.succ_mul] at hm
                set C := (total - (s.tried.length + 1)) * (4 * total + 8) with hC
                set W := (3 - s.wait_rounds) * (total + 1) with hW
                omega

/-- A two-credential pool (all source defaults: active, no cooldown,
minimum interval 3 seconds) for exercising the retry wrapper. -/
def pool6 : CookiePool :=
  { accounts := [{ cookie_id := 1 }, { cookie_id := 2 }] }

/-- C6, retry budgets and termination of
`JsonToFullData.get_with_cookie_pool_retry`: in one logical request,
each distinct credential is attempted at most once (the attempted ids
are exactly the final `tried_cookie_ids`, pairwise distinct, and never
more than the pool size), the wait-for-cooldown loop runs at most 3
rounds, and — provided the pool's credential ids are distinct, every
minimum interval is positive (the source default is 3 seconds), and
the fuel exceeds the termination measure — the wrapper returns an
actual result rather than looping forever; a success return names a
credential whose API call succeeded, and a `failureAll` return means
every attempted credential's API call failed. -/
theorem C6_retry_budgets_and_termination (apiOk : Nat → Bool)
    (picks : Nat → Nat) (fuel : Nat) (pool : CookiePool) (clock : Nat)
    (hids : (pool.accounts.map CookieAccount.cookie_id).Nodup)
    (hmin : ∀ a ∈ pool.accounts, 1 ≤ a.min_interval)
    (hfuel : retryMeasure pool.accounts.length ⟨pool, [], 0, clock, 0⟩ < fuel) :
    (get_with_cookie_pool_retry apiOk picks fuel pool clock).tried.Nodup ∧
    (get_with_cookie_pool_retry apiOk picks fuel pool clock).tried =
      (get_with_cookie_pool_retry apiOk picks fuel pool clock).attempts ∧
    (get_with_cookie_pool_retry apiOk picks fuel pool clock).tried.length ≤
      pool.accounts.length ∧
    (get_with_cookie_pool_retry apiOk picks fuel pool clock).wait_rounds ≤ 3 ∧
    (get_with_cookie_pool_retry apiOk picks fuel pool clock).res ≠ none ∧
    (∀ cid, (get_with_cookie_pool_retry apiOk picks fuel pool clock).res =
        some (RetryResult.success cid) → apiOk cid = true ∧
      cid ∈ (get_with_cookie_pool_retry apiOk picks fuel pool clock).attempts) ∧
    ((get_with_cookie_pool_retry apiOk picks fuel pool clock).res =
        some RetryResult.failureAll →
      ∀ cid ∈ (get_with_cookie_pool_retry apiOk picks fuel pool clock).attempts,
        apiOk cid = false) := by
  by_cases h0 : pool.accounts.length = 0
  · simp [get_with_cookie_pool_retry, h0]
  · simp only [get_with_cookie_pool_retry, if_neg h0]
    refine ⟨?_, ?_, ?_, ?_, ?_, ?_, ?_⟩
    · exact retryLoop_nodup _ _ _ _ _ List.nodup_nil
    · have h := retryLoop_tried_attempts apiOk picks pool.accounts.length fuel
        ⟨pool, [], 0, clock, 0⟩
      simpa using h
    · exact retryLoop_tried_le _ _ _ _ _ (by simp)
    · exact retryLoop_wait_le _ _ _ _ _ (by dsimp only; omega)
    · exact retryLoop_no_fuel apiOk picks _ fuel _ ⟨rfl, hids, hmin⟩ hfuel
    · intro cid hr
      exact retryLoop_success_inv _ _ _ _ _ _ hr
    · exact retryLoop_failureAll_attempts _ _ _ _ _

/-- C6 witness: the two-credential pool, an API that always fails, and
fuel 100 (above the measure).  All hypotheses hold by computation and
the theorem applies. -/
theorem C6_retry_budgets_and_termination_witness :
    ((pool6.accounts.map CookieAccount.cookie_id).Nodup ∧
      (∀ a ∈ pool6.accounts, 1 ≤ a.min_interval) ∧
      retryMeasure pool6.accounts.length ⟨pool6, [], 0, 50, 0⟩ < 100) ∧
    ((get_with_cookie_pool_retry (fun _ => false) (fun _ => 0) 100 pool6 50).tried.Nodup ∧
    (get_with_cookie_pool_retry (fun _ => false) (fun _ => 0) 100 pool6 50).tried =
      (get_with_cookie_pool_retry (fun _ => false) (fun _ => 0) 100 pool6 50).attempts ∧
    (get_with_cookie_pool_retry (fun _ => false) (fun _ => 0) 100 pool6 50).tried.length ≤
      pool6.accounts.length ∧
    (get_with_cookie_pool_retry (fun _ => false) (fun _ => 0) 100 pool6 50).wait_rounds ≤ 3 ∧
    (get_with_cookie_pool_retry (fun _ => false) (fun _ => 0) 100 pool6 50).res ≠ none ∧
    (∀ cid, (get_with_cookie_pool_retry (fun _ => false) (fun _ => 0) 100 pool6 50).res =
        some (RetryResult.success cid) → (fun _ => false : Nat → Bool) cid = true ∧
      cid ∈ (get_with_cookie_pool_retry (fun _ => false) (fun _ => 0) 100 pool6 50).attempts) ∧
    ((get_with_cookie_pool_retry (fun _ => false) (fun _ => 0) 100 pool6 50).res =
        some RetryResult.failureAll →
      ∀ cid ∈ (get_with_cookie_pool_retry (fun _ => false) (fun _ => 0) 100 pool6 50).attempts,
        (fun _ => false : Nat → Bool) cid = false)) :=
  ⟨⟨by decide, by decide, by decide⟩,
    C6_retry_budgets_and_termination (fun _ => false) (fun _ => 0) 100 pool6 50
      (by decide) (by decide) (by decide)⟩
